import Mathlib

/-!
Shared-memory tuple buffer (`src/src/Buffer.cpp`).

A shallow embedding of `Buffer::init`, `Buffer::findFreeBlock`, `Buffer::getLastElem`,
`Buffer::getFirstElem`, `Buffer::output` and `Buffer::inputReadImpl`.

* The shared segment is `Shm`: the header's head and tail index and the array of blocks.
* The per-process object is `Buffer`: the mapped segment, the allocation cursor
  `currentAllocationIndex`, and (ghost state) the locks the process holds and the
  sequence of lock acquisitions and releases it has performed.
* Indices are `Int` as in the source (`int`); the enum constants of `Index` and
  `MAX_TUPLES_COUNT` come from `Buffer.hpp`, which is not part of the sources, and are the
  fields of `Consts`.
* A run that does not return normally yields a `Fault`: a `while (true)` loop that is cut
  off (`fuel`), a lock requested while the process already holds it (`deadlock`), a
  failed `assert` (`assertion`), a block access outside the array (`undefined`), `exit`.
-/

namespace Linda

/-- The serialised bytes of a tuple (what `Tuple::write` stores in a block). -/
abbrev Tuple := List Nat

/-- The status flag of a block (`Elem::Status`). -/
inductive Status where
  | Free
  | Valid
deriving DecidableEq

/-- The fields of one block of the segment, as read and written through an `Elem` handle. -/
structure Elem where
  status : Status
  nextIndex : Int
  prevIndex : Int
  tupleBody : Tuple
deriving DecidableEq

/-- The constants of `Buffer.hpp`: the number of blocks and the three sentinels of `enum Index`. -/
structure Consts where
  MAX_TUPLES_COUNT : Nat
  End : Int
  REnd : Int
  Invalid : Int
deriving DecidableEq

/-- A sentinel is not the index of a block, and the sentinels are pairwise distinct. -/
def Consts.WF (K : Consts) : Prop :=
  (K.End < 0 ∨ (K.MAX_TUPLES_COUNT : Int) ≤ K.End) ∧
  (K.REnd < 0 ∨ (K.MAX_TUPLES_COUNT : Int) ≤ K.REnd) ∧
  (K.Invalid < 0 ∨ (K.MAX_TUPLES_COUNT : Int) ≤ K.Invalid) ∧
  K.End ≠ K.REnd ∧ K.End ≠ K.Invalid ∧ K.REnd ≠ K.Invalid

instance (K : Consts) : Decidable K.WF := by
  unfold Consts.WF; infer_instance

/-- The shared segment: `ShmHeader::headIndex`, `ShmHeader::tailIndex` and the blocks. -/
structure Shm where
  headIndex : Int
  tailIndex : Int
  blocks : Nat → Elem

/-- The mutexes of the segment. -/
inductive Lock where
  | headLock
  | tailLock
  | elem (i : Nat)
  | condMutex
deriving DecidableEq

/-- One lock operation of a process. -/
inductive LockEv where
  | acquire (l : Lock)
  | release (l : Lock)
deriving DecidableEq

/-- The `Buffer` object of one process together with the locks it holds and its lock history. -/
structure Buffer where
  shm : Shm
  currentAllocationIndex : Nat
  held : List Lock
  trace : List LockEv

/-- The ways a run fails to return normally. -/
inductive Fault where
  | fuel
  | deadlock
  | assertion
  | undefined
  | exit
deriving DecidableEq

/-- The result of `Buffer::output`. -/
inductive OutputResult where
  | success
  | out_of_memory
deriving DecidableEq

/-- The block number behind an index, when the index is one of `0 .. MAX_TUPLES_COUNT - 1`. -/
def Consts.slot (K : Consts) (i : Int) : Except Fault Nat :=
  if 0 ≤ i ∧ i < (K.MAX_TUPLES_COUNT : Int) then .ok i.toNat else .error .undefined

/-- The method `Mutex::lock`: a process that asks for a mutex it already holds never proceeds. -/
def Buffer.lock (B : Buffer) (l : Lock) : Except Fault Buffer :=
  if l ∈ B.held then .error .deadlock
  else .ok { B with held := l :: B.held, trace := B.trace ++ [LockEv.acquire l] }

/-- The method `Mutex::unlock`. -/
def Buffer.unlock (B : Buffer) (l : Lock) : Buffer :=
  { B with held := B.held.erase l, trace := B.trace ++ [LockEv.release l] }

/-- Overwrite the fields of block `n`. -/
def Buffer.modifyElem (B : Buffer) (n : Nat) (f : Elem → Elem) : Buffer :=
  { B with shm := { B.shm with blocks := Function.update B.shm.blocks n (f (B.shm.blocks n)) } }

/-- The assignment `*shmHeader.headIndex = v`. -/
def Buffer.setHeadIndex (B : Buffer) (v : Int) : Buffer :=
  { B with shm := { B.shm with headIndex := v } }

/-- The assignment `*shmHeader.tailIndex = v`. -/
def Buffer.setTailIndex (B : Buffer) (v : Int) : Buffer :=
  { B with shm := { B.shm with tailIndex := v } }

/-- The method `Elem::lock` on the handle with index `i`. -/
def Elem.lock (K : Consts) (i : Int) (B : Buffer) : Except Fault Buffer := do
  let n ← K.slot i
  B.lock (Lock.elem n)

/-- The method `Elem::unlock` on the handle with index `i`. -/
def Elem.unlock (K : Consts) (i : Int) (B : Buffer) : Except Fault Buffer := do
  let n ← K.slot i
  pure (B.unlock (Lock.elem n))

/-- The fields of the block behind the handle with index `i`. -/
def Elem.get (K : Consts) (i : Int) (B : Buffer) : Except Fault Elem := do
  let n ← K.slot i
  pure (B.shm.blocks n)

/-- The method `Elem::getStatus`. -/
def Elem.getStatus (K : Consts) (i : Int) (B : Buffer) : Except Fault Status := do
  let e ← Elem.get K i B
  pure e.status

/-- The method `Elem::getNextIndex`. -/
def Elem.getNextIndex (K : Consts) (i : Int) (B : Buffer) : Except Fault Int := do
  let e ← Elem.get K i B
  pure e.nextIndex

/-- The method `Elem::setNextIndex`. -/
def Elem.setNextIndex (K : Consts) (i : Int) (v : Int) (B : Buffer) : Except Fault Buffer := do
  let n ← K.slot i
  pure (B.modifyElem n (fun e => { e with nextIndex := v }))

/-- The method `Elem::setPrevIndex`. -/
def Elem.setPrevIndex (K : Consts) (i : Int) (v : Int) (B : Buffer) : Except Fault Buffer := do
  let n ← K.slot i
  pure (B.modifyElem n (fun e => { e with prevIndex := v }))

/-- The method `Elem::setStatus`. -/
def Elem.setStatus (K : Consts) (i : Int) (s : Status) (B : Buffer) : Except Fault Buffer := do
  let n ← K.slot i
  pure (B.modifyElem n (fun e => { e with status := s }))

/-- The call `tuple.write((unsigned char*)freeBlock.getTupleBodyPtr())`: the payload of the
block becomes the serialised tuple. -/
def Elem.writeTuple (K : Consts) (i : Int) (t : Tuple) (B : Buffer) : Except Fault Buffer := do
  let n ← K.slot i
  pure (B.modifyElem n (fun e => { e with tupleBody := t }))

/-- Modelled from the spec: `Elem::init` of `Elem.hpp`, which is not part of the sources
("initializes every Slot to `Free` with cleared links"). -/
def Elem.init (K : Consts) : Elem :=
  { status := Status.Free, nextIndex := K.End, prevIndex := K.REnd, tupleBody := [] }

/-- The segment written by `Buffer::init`, lines 47-57: head and tail are `End` and every
block is initialised. -/
def init (K : Consts) : Shm :=
  { headIndex := K.End, tailIndex := K.End, blocks := fun _ => Elem.init K }

/-- The constructor `Buffer::Buffer`, lines 15-17: the cursor starts at `0`; the process
holds no lock. -/
def Buffer.attach (S : Shm) : Buffer :=
  { shm := S, currentAllocationIndex := 0, held := [], trace := [] }

/-- The `for` loop of `Buffer::findFreeBlock`, with `n` iterations left. -/
def findFreeBlockLoop (K : Consts) : Nat → Buffer → Except Fault (Int × Buffer)
  | 0, B => .ok (K.Invalid, B)
  | n + 1, B => do
    let block : Int := (B.currentAllocationIndex : Int)
    let B ← Elem.lock K block B
    let s ← Elem.getStatus K block B
    if s = Status.Free then
      let B ← Elem.setNextIndex K block K.End B
      pure (block, B)
    else
      let B ← Elem.unlock K block B
      findFreeBlockLoop K n
        { B with currentAllocationIndex := (B.currentAllocationIndex + 1) % K.MAX_TUPLES_COUNT }

/-- The function `Buffer::findFreeBlock`, lines 238-250. -/
def findFreeBlock (K : Consts) (B : Buffer) : Except Fault (Int × Buffer) :=
  findFreeBlockLoop K K.MAX_TUPLES_COUNT B

/-- The function `Buffer::getLastElem`, lines 207-236; `fuel` bounds the iterations of
`while (true)`. Each `guardLock` is a lock released at the end of its scope, also on
`continue` and `return`. The test `elem.getAddr() == nullptr` is never true for a block of
the array; an index outside the array is `Fault.undefined` at the lock before it. -/
def getLastElem (K : Consts) : Nat → Buffer → Except Fault (Int × Buffer)
  | 0, _ => .error .fuel
  | fuel + 1, B => do
    let B ← B.lock Lock.tailLock
    let lastIndex := B.shm.tailIndex
    let B := B.unlock Lock.tailLock
    if lastIndex = K.End then
      let B ← B.lock Lock.tailLock
      if lastIndex = K.End then
        pure (lastIndex, B.unlock Lock.tailLock)
      else
        getLastElem K fuel (B.unlock Lock.tailLock)
    else
      let B ← Elem.lock K lastIndex B
      let s ← Elem.getStatus K lastIndex B
      if s = Status.Free then
        let B ← Elem.unlock K lastIndex B
        getLastElem K fuel B
      else
        let nx ← Elem.getNextIndex K lastIndex B
        if nx ≠ K.End then
          let B ← Elem.unlock K lastIndex B
          getLastElem K fuel B
        else
          let B ← Elem.unlock K lastIndex B
          pure (lastIndex, B)

/-- The `while (true)` loop of `Buffer::output`, lines 105-129: returns
`addingFirstElement`, the verified `last` and the state. -/
def outputLoop (K : Consts) : Nat → Int → Buffer → Except Fault (Bool × Int × Buffer)
  | 0, _, _ => .error .fuel
  | fuel + 1, last, B =>
    if last = K.End then do
      let B ← B.lock Lock.headLock
      if B.shm.headIndex = K.End then
        pure (true, last, B)
      else
        let (last, B) ← getLastElem K fuel B
        outputLoop K fuel last B
    else do
      let B ← Elem.lock K last B
      let nx ← Elem.getNextIndex K last B
      if nx = K.End then
        pure (false, last, B)
      else
        let B ← Elem.unlock K last B
        let (last, B) ← getLastElem K fuel B
        outputLoop K fuel last B

/-- The function `Buffer::output`, lines 90-160. `sched` is what the other processes do to the segment
between the optimistic read of the tail (line 104) and the first lock taken by the loop
(line 109 or 121); a run with no other process has `sched = id`. -/
def outputWith (sched : Shm → Shm) (K : Consts) (fuel : Nat) (tuple : Tuple) (B : Buffer) :
    Except Fault (OutputResult × Buffer) := do
  let (freeBlock, B) ← findFreeBlock K B
  if freeBlock = K.Invalid then
    pure (OutputResult.out_of_memory, B)
  else
    let (last, B) ← getLastElem K fuel B
    let B := { B with shm := sched B.shm }
    let (addingFirstElement, last, B) ← outputLoop K fuel last B
    let B ← B.lock Lock.tailLock
    let B ←
      if addingFirstElement then
        Elem.setPrevIndex K freeBlock K.REnd (B.setHeadIndex freeBlock)
      else do
        let B ← Elem.setNextIndex K last freeBlock B
        Elem.setPrevIndex K freeBlock last B
    let B ← Elem.writeTuple K freeBlock tuple B
    let B ← Elem.setStatus K freeBlock Status.Valid B
    let B := B.setTailIndex freeBlock
    let B ←
      if addingFirstElement then
        pure (B.unlock Lock.headLock)
      else
        Elem.unlock K last B
    let B := B.unlock Lock.tailLock
    let B ← Elem.unlock K freeBlock B
    let B ← B.lock Lock.condMutex
    let B := B.unlock Lock.condMutex
    let s ← Elem.getStatus K freeBlock B
    if s = Status.Free then
      .error .assertion
    else
      pure (OutputResult.success, B)

/-- The function `Buffer::output` in a run with no other process. -/
def output (K : Consts) (fuel : Nat) (tuple : Tuple) (B : Buffer) :
    Except Fault (OutputResult × Buffer) :=
  outputWith id K fuel tuple B

/-- The function `Buffer::getFirstElem`, lines 193-205. -/
def getFirstElem (K : Consts) (B : Buffer) : Except Fault (Int × Buffer) := do
  let B ← B.lock Lock.headLock
  let elem := B.shm.headIndex
  if elem ≠ K.End then
    let s ← Elem.getStatus K elem B
    if s = Status.Free then
      .error .assertion
    else
      pure (elem, B.unlock Lock.headLock)
  else
    pure (elem, B.unlock Lock.headLock)

/-- Modelled from the spec: the result of `QueryParser::parse` (the lexer and the parser
are not part of the sources): whether the parse produced no predicate at all, and the
match decision of the compiled predicate over a candidate payload. -/
structure Query where
  empty : Bool
  matchesTuple : Tuple → Bool

/-- Modelled from the spec: `Cond::wait(timeout)` of the header's condition variable,
which is not part of the sources. The deadline is wall-clock time, outside this model; in
a run with no other process no broadcast arrives, so the wait ends by timeout and
reports `false`. -/
def Cond.wait (B : Buffer) : Bool × Buffer :=
  (false, B)

/-- Modelled from the spec: `Elem::read` of `Elem.hpp`, which is not part of the sources
("Match, non-destructive: return a copy of the payload; Slot untouched"), under the
block's own lock. -/
def Elem.read (K : Consts) (q : Query) (i : Int) (B : Buffer) :
    Except Fault (Option Tuple × Buffer) := do
  let B ← Elem.lock K i B
  let e ← Elem.get K i B
  let B ← Elem.unlock K i B
  if q.matchesTuple e.tupleBody then
    pure (some e.tupleBody, B)
  else
    pure (none, B)

/-- Modelled from the spec: `Elem::take` of `Elem.hpp`, which is not part of the sources
("Match, destructive: unlink the Slot from the list (connect its `prev` and `next`
neighbors directly to each other, adjusting `head`/`tail` if the Slot was first/last),
mark it `Free`, and return its payload"). The block is first when its `prev` is `REnd`
and last when its `next` is `End`; the tail of a list that becomes empty is `End`. Of the
locks taken while unlinking, only the block's own lock is recorded. -/
def Elem.take (K : Consts) (q : Query) (i : Int) (B : Buffer) :
    Except Fault (Option Tuple × Buffer) := do
  let B ← Elem.lock K i B
  let e ← Elem.get K i B
  if q.matchesTuple e.tupleBody then
    let B ←
      if e.prevIndex = K.REnd then
        pure (B.setHeadIndex e.nextIndex)
      else
        Elem.setNextIndex K e.prevIndex e.nextIndex B
    let B ←
      if e.nextIndex = K.End then
        pure (B.setTailIndex (if e.prevIndex = K.REnd then K.End else e.prevIndex))
      else
        Elem.setPrevIndex K e.nextIndex e.prevIndex B
    let B ← Elem.setStatus K i Status.Free B
    let B ← Elem.unlock K i B
    pure (some e.tupleBody, B)
  else
    let B ← Elem.unlock K i B
    pure (none, B)

/-- Modelled from the spec: `Elem::next(timeout)` of `Elem.hpp`, which is not part of the
sources ("advance to `next`"; when the block is the tail the call waits for a new element
and "if advancing times out, return `timeout`"). Returns whether it advanced and the new
index of the handle. -/
def Elem.next (K : Consts) (i : Int) (B : Buffer) : Except Fault (Bool × Int × Buffer) := do
  let B ← Elem.lock K i B
  let nx ← Elem.getNextIndex K i B
  let B ← Elem.unlock K i B
  if nx = K.End then
    let B ← B.lock Lock.condMutex
    let (woken, B) := Cond.wait B
    let B := B.unlock Lock.condMutex
    pure (woken, i, B)
  else
    pure (true, nx, B)

/-- The first loop of `Buffer::inputReadImpl`, lines 265-274: wait until the list has a
first element; `none` is the `return std::nullopt` of line 270. -/
def waitFirstElem (K : Consts) : Nat → Int → Buffer → Except Fault (Option Int × Buffer)
  | 0, _, _ => .error .fuel
  | fuel + 1, cur, B =>
    if cur = K.End then do
      let B ← B.lock Lock.condMutex
      let (woken, B) := if cur = K.End then Cond.wait B else (true, B)
      if !woken then
        pure (none, B.unlock Lock.condMutex)
      else
        let (cur, B) ← getFirstElem K B
        waitFirstElem K fuel cur (B.unlock Lock.condMutex)
    else
      pure (some cur, B)

/-- The second loop of `Buffer::inputReadImpl`, lines 278-290. -/
def inputReadLoop (K : Consts) (q : Query) (deleteTuple : Bool) :
    Nat → Int → Buffer → Except Fault (Option Tuple × Buffer)
  | 0, _, _ => .error .fuel
  | fuel + 1, cur, B => do
    let (result, B) ← if deleteTuple then Elem.take K q cur B else Elem.read K q cur B
    match result with
    | some t => pure (some t, B)
    | none =>
      let (advanced, cur, B) ← Elem.next K cur B
      if !advanced then
        pure (none, B)
      else
        inputReadLoop K q deleteTuple fuel cur B

/-- The function `Buffer::inputReadImpl`, lines 252-291, on the parsed query; `none` is
`std::nullopt` (timeout). -/
def inputReadImpl (K : Consts) (fuel : Nat) (q : Query) (deleteTuple : Bool) (B : Buffer) :
    Except Fault (Option Tuple × Buffer) :=
  if q.empty then
    .error .exit
  else do
    let (cur, B) ← getFirstElem K B
    let (first, B) ← waitFirstElem K fuel cur B
    match first with
    | none => pure (none, B)
    | some cur =>
      let s ← Elem.getStatus K cur B
      if s = Status.Free then
        .error .assertion
      else
        inputReadLoop K q deleteTuple fuel cur B

/-- The function `Buffer::input`, lines 162-164. -/
def input (K : Consts) (fuel : Nat) (q : Query) (B : Buffer) :
    Except Fault (Option Tuple × Buffer) :=
  inputReadImpl K fuel q true B

/-- The function `Buffer::read`, lines 166-168. -/
def read (K : Consts) (fuel : Nat) (q : Query) (B : Buffer) :
    Except Fault (Option Tuple × Buffer) :=
  inputReadImpl K fuel q false B

/-! ## Specification vocabulary -/

/-- Following `nextIndex` from index `i` visits exactly the blocks `l`, in this order, and
then reaches `End`. -/
def Chain (K : Consts) (S : Shm) : Int → List Nat → Prop
  | i, [] => i = K.End
  | i, a :: l => i = (a : Int) ∧ a < K.MAX_TUPLES_COUNT ∧ Chain K S (S.blocks a).nextIndex l

instance Chain.decide (K : Consts) (S : Shm) : (l : List Nat) → (i : Int) →
    Decidable (Chain K S i l)
  | [], i => by unfold Chain; infer_instance
  | a :: l, i => by
    unfold Chain
    have := Chain.decide K S l (S.blocks a).nextIndex
    infer_instance

/-- The index of the last block of the walk, `End` for the empty walk. -/
def lastOf (K : Consts) (l : List Nat) : Int :=
  match l.getLast? with
  | some a => (a : Int)
  | none => K.End

/-- The list invariant, for the walk `l`: following `next` from `head` visits `l` and
reaches `End`; `tail` is the last block of the walk; the visited blocks are `Valid` and
every other block is `Free`. -/
def ListInvOn (K : Consts) (S : Shm) (l : List Nat) : Prop :=
  Chain K S S.headIndex l ∧ S.tailIndex = lastOf K l ∧
  (∀ i, i < K.MAX_TUPLES_COUNT → i ∈ l → (S.blocks i).status = Status.Valid) ∧
  (∀ i, i < K.MAX_TUPLES_COUNT → i ∉ l → (S.blocks i).status = Status.Free)

instance (K : Consts) (S : Shm) (l : List Nat) : Decidable (ListInvOn K S l) := by
  unfold ListInvOn; infer_instance

/-- The list invariant: `head = End` iff `tail = End`, and the walk from `head` exists. -/
def ListInv (K : Consts) (S : Shm) : Prop :=
  (S.headIndex = K.End ↔ S.tailIndex = K.End) ∧ ∃ l, ListInvOn K S l

/-- Every block of the walk `l` has as `prevIndex` its predecessor on the walk; `p` is
the predecessor of the first one. -/
def PrevChain (S : Shm) : Int → List Nat → Prop
  | _, [] => True
  | p, a :: l => (S.blocks a).prevIndex = p ∧ PrevChain S (a : Int) l

instance PrevChain.decide (S : Shm) : (l : List Nat) → (p : Int) → Decidable (PrevChain S p l)
  | [], p => by unfold PrevChain; infer_instance
  | a :: l, p => by
    unfold PrevChain
    have := PrevChain.decide S l (a : Int)
    infer_instance

/-- The list invariant with the backward links: the first block's `prev` is `REnd`. -/
def DListInvOn (K : Consts) (S : Shm) (l : List Nat) : Prop :=
  ListInvOn K S l ∧ PrevChain S K.REnd l

instance (K : Consts) (S : Shm) (l : List Nat) : Decidable (DListInvOn K S l) := by
  unfold DListInvOn; infer_instance

/-- The state of a process between two calls: the cursor is a block number and no lock
is held. -/
def Buffer.Idle (K : Consts) (B : Buffer) : Prop :=
  B.currentAllocationIndex < K.MAX_TUPLES_COUNT ∧ B.held = []

instance (K : Consts) (B : Buffer) : Decidable (B.Idle K) := by
  unfold Buffer.Idle; infer_instance

/-- The blocks probed by a scan of `k` steps from cursor `c`: `c, c+1, ..., c+k-1` modulo `N`. -/
def probeSeq (N c k : Nat) : List Nat :=
  (List.range k).map (fun j => (c + j) % N)

/-- The lock events of unsuccessful probes: each block is locked and unlocked. -/
def probeTrace : List Nat → List LockEv
  | [] => []
  | a :: l => LockEv.acquire (Lock.elem a) :: LockEv.release (Lock.elem a) :: probeTrace l

/-- The segment after `findFreeBlock` has reserved the block `f`: its `nextIndex` is `End`. -/
def reserved (K : Consts) (S : Shm) (f : Nat) : Shm :=
  { S with blocks := Function.update S.blocks f { S.blocks f with nextIndex := K.End } }

/-- The segment after the block `f` has been linked at the tail with payload `t`. -/
def linked (K : Consts) (S : Shm) (f : Nat) (t : Tuple) : Shm :=
  { headIndex := if S.tailIndex = K.End then (f : Int) else S.headIndex
    tailIndex := (f : Int)
    blocks := fun i =>
      if i = f then
        { status := Status.Valid, nextIndex := K.End,
          prevIndex := if S.tailIndex = K.End then K.REnd else S.tailIndex, tupleBody := t }
      else if S.tailIndex ≠ K.End ∧ (i : Int) = S.tailIndex then
        { S.blocks i with nextIndex := (f : Int) }
      else S.blocks i }

/-- The position of a lock in the order headLock, tailLock, block locks. -/
def Lock.rank : Lock → Nat
  | Lock.headLock => 0
  | Lock.tailLock => 1
  | Lock.elem _ => 2
  | Lock.condMutex => 3

/-- Every acquisition of the history `tr`, replayed from the held set `h`, satisfies `p`
(given the lock acquired and the locks held at that moment). -/
def acquiresSat (p : Lock → List Lock → Bool) : List Lock → List LockEv → Bool
  | _, [] => true
  | h, LockEv.acquire l :: tr => p l h && acquiresSat p (l :: h) tr
  | h, LockEv.release l :: tr => acquiresSat p (h.erase l) tr

/-- The locks held after the history `tr`, replayed from the held set `h`. -/
def heldAfter : List Lock → List LockEv → List Lock
  | h, [] => h
  | h, LockEv.acquire l :: tr => heldAfter (l :: h) tr
  | h, LockEv.release l :: tr => heldAfter (h.erase l) tr

/-- The order headLock, tailLock, block locks: no held lock comes later than the lock
being acquired. -/
def lockOrdered (tr : List LockEv) : Bool :=
  acquiresSat (fun l h => h.all (fun l' => decide (l'.rank ≤ l.rank))) [] tr

/-- The header order alone: headLock is not acquired while tailLock is held. -/
def headBeforeTail (tr : List LockEv) : Bool :=
  acquiresSat (fun l h => !(l = Lock.headLock && h.contains Lock.tailLock)) [] tr

/-- The lock of block `f` is held at every acquisition of headLock or tailLock. -/
def headTailUnderElem (f : Nat) (tr : List LockEv) : Bool :=
  acquiresSat (fun l h => !(decide (l = Lock.headLock ∨ l = Lock.tailLock)) ||
    h.contains (Lock.elem f)) [] tr

/-- The segment after the block `a` has been unlinked from the list and marked `Free`. -/
def unlinked (K : Consts) (S : Shm) (a : Nat) : Shm :=
  { headIndex := if (S.blocks a).prevIndex = K.REnd then (S.blocks a).nextIndex else S.headIndex
    tailIndex :=
      if (S.blocks a).nextIndex = K.End then
        (if (S.blocks a).prevIndex = K.REnd then K.End else (S.blocks a).prevIndex)
      else S.tailIndex
    blocks := fun i =>
      if i = a then
        { S.blocks a with status := Status.Free }
      else if (S.blocks a).prevIndex ≠ K.REnd ∧ (i : Int) = (S.blocks a).prevIndex then
        { S.blocks i with nextIndex := (S.blocks a).nextIndex }
      else if (S.blocks a).nextIndex ≠ K.End ∧ (i : Int) = (S.blocks a).nextIndex then
        { S.blocks i with prevIndex := (S.blocks a).prevIndex }
      else S.blocks i }


/-- Following `nextIndex` from index `i` visits exactly the blocks `l` and then reaches
the index `j`. -/
def ChainTo (K : Consts) (S : Shm) (j : Int) : Int → List Nat → Prop
  | i, [] => i = j
  | i, a :: l => i = (a : Int) ∧ a < K.MAX_TUPLES_COUNT ∧ ChainTo K S j (S.blocks a).nextIndex l

/-- The index of the last block of `l`, or `p` when `l` is empty. -/
def lastOr (p : Int) (l : List Nat) : Int :=
  match l.getLast? with
  | some a => (a : Int)
  | none => p


/-- What a walk over the blocks `l` with query `q` yields: either no block of `l` matches,
the result is `none` and the segment is unchanged; or the result is the payload of the
first block `x` of `l` that matches, and the segment is unchanged (`read`) or has `x`
unlinked (`input`). The cursor is unchanged and no lock is held. -/
def WalkResult (K : Consts) (q : Query) (deleteTuple : Bool) (S : Shm) (c : Nat)
    (l : List Nat) (r : Option Tuple) (B' : Buffer) : Prop :=
  B'.currentAllocationIndex = c ∧ B'.held = [] ∧
  ((r = none ∧ B'.shm = S ∧ ∀ x, x ∈ l → q.matchesTuple (S.blocks x).tupleBody = false) ∨
   (∃ m1 x m2, l = m1 ++ x :: m2 ∧
      (∀ y, y ∈ m1 → q.matchesTuple (S.blocks y).tupleBody = false) ∧
      q.matchesTuple (S.blocks x).tupleBody = true ∧ r = some (S.blocks x).tupleBody ∧
      B'.shm = if deleteTuple then unlinked K S x else S))


/-- Consecutive calls to `output`, one per tuple, with nothing in between; returns the
results of the calls. -/
def outputs (K : Consts) (fuel : Nat) : List Tuple → Buffer →
    Except Fault (List OutputResult × Buffer)
  | [], B => Except.ok ([], B)
  | t :: ts, B => do
    let (r, B) ← output K fuel t B
    let (rs, B) ← outputs K fuel ts B
    pure (r :: rs, B)

/-- Insert-then-remove cycles, one per tuple: `output` of the tuple followed by `input`
with the query `q`. Returns, for each cycle, the result of `output`, the index of the
block the tuple was placed in (the tail after the insertion) and the result of `input`. -/
def cycles (K : Consts) (fuel : Nat) (q : Query) : List Tuple → Buffer →
    Except Fault (List (OutputResult × Int × Option Tuple) × Buffer)
  | [], B => Except.ok ([], B)
  | t :: ts, B => do
    let (r, B) ← output K fuel t B
    let placed := B.shm.tailIndex
    let (got, B) ← input K fuel q B
    let (rest, B) ← cycles K fuel q ts B
    pure ((r, placed, got) :: rest, B)


/-- The ghost state of a process is consistent and its history satisfies `p`: the held
set is the one obtained by replaying the history, and every acquisition satisfies `p`. -/
def Tracked (p : Lock → List Lock → Bool) (B : Buffer) : Prop :=
  B.held = heldAfter [] B.trace ∧ acquiresSat p [] B.trace = true

instance (p : Lock → List Lock → Bool) (B : Buffer) : Decidable (Tracked p B) := by
  unfold Tracked; infer_instance

/-! ## Concrete instances -/

/-- Two blocks; the sentinels are the first three negative numbers. -/
def K2 : Consts :=
  { MAX_TUPLES_COUNT := 2, End := -1, REnd := -2, Invalid := -3 }

/-- A parsed query that matches every tuple. -/
def matchAll : Query :=
  { empty := false, matchesTuple := fun _ => true }

/-- The lock history of a run. -/
def traceOf {α : Type} : Except Fault (α × Buffer) → List LockEv
  | Except.ok (_, B) => B.trace
  | Except.error _ => []

/-- The locks held at the end of a run. -/
def heldOf {α : Type} : Except Fault (α × Buffer) → List Lock
  | Except.ok (_, B) => B.held
  | Except.error _ => []

/-- The value returned by a run, if it returns. -/
def valueOf {α : Type} : Except Fault (α × Buffer) → Option α
  | Except.ok (a, _) => some a
  | Except.error _ => none

/-- The process state at the end of a run (`B0` if the run does not return). -/
def bufferOf {α : Type} (B0 : Buffer) : Except Fault (α × Buffer) → Buffer
  | Except.ok (_, B) => B
  | Except.error _ => B0

/-- A second producer, attached to the same segment with its own cursor `c`, that runs one
whole call of `output`: its effect on the segment. -/
def otherProducer (K : Consts) (fuel : Nat) (t : Tuple) (c : Nat) (S : Shm) : Shm :=
  (bufferOf (Buffer.attach S)
    (output K fuel t { Buffer.attach S with currentAllocationIndex := c })).shm

/-- The freshly initialised two-block buffer of a newly attached process. -/
def fresh2 : Buffer :=
  Buffer.attach (init K2)

/-- The two-block buffer after `output` of the tuple `[1]`. -/
def one2 : Buffer :=
  bufferOf fresh2 (output K2 1 [1] fresh2)

/-- The two-block buffer after `output` of the tuples `[1]` and `[2]`: it is full. -/
def full2 : Buffer :=
  bufferOf one2 (output K2 1 [2] one2)


/-- A parsed query that matches exactly the tuple `t`. -/
def matchTuple (t : Tuple) : Query :=
  { empty := false, matchesTuple := fun u => decide (u = t) }

/-! ## Proofs -/

/-! ### The result monad and the allocator loop -/

section basics
variable {ε α β : Type}

@[simp] theorem ok_bind (a : α) (f : α → Except ε β) : (Except.ok a >>= f) = f a := rfl

@[simp] theorem error_bind (e : ε) (f : α → Except ε β) :
    ((Except.error e : Except ε α) >>= f) = Except.error e := rfl

@[simp] theorem pure_eq_ok (a : α) : (pure a : Except ε α) = Except.ok a := rfl

theorem bind_eq_ok {x : Except ε α} {f : α → Except ε β} {b : β} :
    (x >>= f) = Except.ok b ↔ ∃ a, x = Except.ok a ∧ f a = Except.ok b := by
  cases x <;> simp

end basics

theorem slot_natCast (K : Consts) {n : Nat} (h : n < K.MAX_TUPLES_COUNT) :
    K.slot (n : Int) = Except.ok n := by
  simp [Consts.slot, h]

theorem slot_eq_ok {K : Consts} {i : Int} {n : Nat} (h : K.slot i = Except.ok n) :
    i = (n : Int) ∧ n < K.MAX_TUPLES_COUNT := by
  unfold Consts.slot at h
  split at h
  · rename_i hi
    simp only [Except.ok.injEq] at h
    omega
  · simp at h

theorem probeSeq_succ (N c k : Nat) (hc : c < N) :
    probeSeq N c (k + 1) = c :: probeSeq N ((c + 1) % N) k := by
  simp only [probeSeq, List.range_succ_eq_map, List.map_cons, List.map_map, Nat.add_zero,
    Nat.mod_eq_of_lt hc]
  congr 1
  apply List.map_congr_left
  intro j _
  simp only [Function.comp, Nat.mod_add_mod]
  congr 1
  omega

theorem findFreeBlockLoop_none (K : Consts) (S : Shm) : ∀ (n c : Nat) (tr : List LockEv),
    c < K.MAX_TUPLES_COUNT →
    (∀ j, j < n → (S.blocks ((c + j) % K.MAX_TUPLES_COUNT)).status ≠ Status.Free) →
    findFreeBlockLoop K n ⟨S, c, [], tr⟩ = Except.ok (K.Invalid,
      ⟨S, (c + n) % K.MAX_TUPLES_COUNT, [], tr ++ probeTrace (probeSeq K.MAX_TUPLES_COUNT c n)⟩)
  | 0, c, tr, hc, _ => by
    simp [findFreeBlockLoop, probeSeq, probeTrace, Nat.mod_eq_of_lt hc]
  | n + 1, c, tr, hc, hfree => by
    have h0 : (S.blocks c).status ≠ Status.Free := by
      have := hfree 0 (Nat.succ_pos n)
      simpa [Nat.mod_eq_of_lt hc] using this
    have hlt : (c + 1) % K.MAX_TUPLES_COUNT < K.MAX_TUPLES_COUNT :=
      Nat.mod_lt _ (by omega)
    have ih := findFreeBlockLoop_none K S n ((c + 1) % K.MAX_TUPLES_COUNT)
      (tr ++ [LockEv.acquire (Lock.elem c), LockEv.release (Lock.elem c)])
      hlt (by
        intro j hj
        have := hfree (j + 1) (by omega)
        simpa [Nat.mod_add_mod, Nat.add_assoc, Nat.add_comm 1 j] using this)
    simp only [findFreeBlockLoop, Elem.lock, Elem.unlock, Elem.getStatus, Elem.get,
      slot_natCast K hc, ok_bind, Buffer.lock, List.not_mem_nil, if_false, pure_eq_ok,
      Buffer.unlock, h0, List.erase_cons_head, List.append_assoc, List.singleton_append]
    rw [ih]
    simp [probeSeq_succ _ _ _ hc, probeTrace, Nat.mod_add_mod, Nat.add_assoc, Nat.add_comm 1 n]

theorem findFreeBlockLoop_found (K : Consts) (S : Shm) : ∀ (n c k : Nat) (tr : List LockEv),
    c < K.MAX_TUPLES_COUNT → k < n →
    (∀ j, j < k → (S.blocks ((c + j) % K.MAX_TUPLES_COUNT)).status ≠ Status.Free) →
    (S.blocks ((c + k) % K.MAX_TUPLES_COUNT)).status = Status.Free →
    findFreeBlockLoop K n ⟨S, c, [], tr⟩ =
      Except.ok ((((c + k) % K.MAX_TUPLES_COUNT : Nat) : Int),
        ⟨reserved K S ((c + k) % K.MAX_TUPLES_COUNT),
          (c + k) % K.MAX_TUPLES_COUNT, [Lock.elem ((c + k) % K.MAX_TUPLES_COUNT)],
          tr ++ probeTrace (probeSeq K.MAX_TUPLES_COUNT c k) ++
            [LockEv.acquire (Lock.elem ((c + k) % K.MAX_TUPLES_COUNT))]⟩)
  | 0, c, k, tr, _, hk, _, _ => by omega
  | n + 1, c, 0, tr, hc, _, _, hfree => by
    simp only [Nat.add_zero, Nat.mod_eq_of_lt hc] at hfree ⊢
    simp [findFreeBlockLoop, Elem.lock, Elem.getStatus, Elem.get, Elem.setNextIndex,
      slot_natCast K hc, Buffer.lock, hfree, Buffer.modifyElem, probeSeq, probeTrace, reserved]
  | n + 1, c, k + 1, tr, hc, hk, hbusy, hfree => by
    have h0 : (S.blocks c).status ≠ Status.Free := by
      have := hbusy 0 (Nat.succ_pos k)
      simpa [Nat.mod_eq_of_lt hc] using this
    have hlt : (c + 1) % K.MAX_TUPLES_COUNT < K.MAX_TUPLES_COUNT :=
      Nat.mod_lt _ (by omega)
    have e : ∀ j, ((c + 1) % K.MAX_TUPLES_COUNT + j) % K.MAX_TUPLES_COUNT
        = (c + (j + 1)) % K.MAX_TUPLES_COUNT := by
      intro j
      rw [Nat.mod_add_mod]
      congr 1
      omega
    have ih := findFreeBlockLoop_found K S n ((c + 1) % K.MAX_TUPLES_COUNT) k
      (tr ++ [LockEv.acquire (Lock.elem c), LockEv.release (Lock.elem c)])
      hlt (by omega) (by
        intro j hj
        rw [e]
        exact hbusy (j + 1) (by omega)) (by rw [e]; exact hfree)
    simp only [findFreeBlockLoop, Elem.lock, Elem.unlock, Elem.getStatus, Elem.get,
      slot_natCast K hc, ok_bind, Buffer.lock, List.not_mem_nil, if_false, pure_eq_ok,
      Buffer.unlock, h0, List.erase_cons_head, List.append_assoc, List.singleton_append]
    rw [ih]
    simp [probeSeq_succ _ _ _ hc, probeTrace, e]

theorem bind_ne_ok {ε α β : Type} {x : Except ε α} {f : α → Except ε β} {b : β}
    (h : ∀ a, f a ≠ Except.ok b) : (x >>= f) ≠ Except.ok b := by
  cases x with
  | error e => simp
  | ok a => simpa using h a

theorem outputWith_out_of_memory {sched : Shm → Shm} {K : Consts} {fuel : Nat} {t : Tuple}
    {B B' : Buffer} (h : outputWith sched K fuel t B = Except.ok (OutputResult.out_of_memory, B')) :
    findFreeBlock K B = Except.ok (K.Invalid, B') := by
  unfold outputWith at h
  rw [bind_eq_ok] at h
  obtain ⟨⟨f, B1⟩, h1, h2⟩ := h
  dsimp only at h2
  split at h2
  · rename_i hf
    simp only [pure_eq_ok, Except.ok.injEq, Prod.mk.injEq, true_and] at h2
    rw [h1, hf, h2]
  · exfalso
    revert h2
    repeat' first
      | (apply bind_ne_ok; intro _)
      | split
      | simp
  

theorem probe_surj {N c i : Nat} (hc : c < N) (hi : i < N) :
    ∃ j, j < N ∧ (c + j) % N = i := by
  refine ⟨(i + N - c) % N, Nat.mod_lt _ (by omega), ?_⟩
  rw [Nat.add_mod_mod]
  have : c + (i + N - c) = i + N := by omega
  rw [this, Nat.add_mod_right, Nat.mod_eq_of_lt hi]

theorem probe_inj {N c i j : Nat} (hi : i < N) (hj : j < N)
    (h : (c + i) % N = (c + j) % N) : i = j := by
  have h1 : c + i ≡ c + j [MOD N] := h
  have h2 : i ≡ j [MOD N] := Nat.ModEq.add_left_cancel' c h1
  exact Nat.ModEq.eq_of_lt_of_lt h2 hi hj

theorem probeSeq_nodup (N c k : Nat) (hk : k ≤ N) : (probeSeq N c k).Nodup := by
  unfold probeSeq
  refine List.Nodup.map_on ?_ (List.nodup_range k)
  intro i hi j hj h
  rw [List.mem_range] at hi hj
  exact probe_inj (by omega) (by omega) h

theorem scan_cases (K : Consts) (S : Shm) (c : Nat) (hc : c < K.MAX_TUPLES_COUNT) :
    (∃ k, k < K.MAX_TUPLES_COUNT ∧
      (∀ j, j < k → (S.blocks ((c + j) % K.MAX_TUPLES_COUNT)).status ≠ Status.Free) ∧
      (S.blocks ((c + k) % K.MAX_TUPLES_COUNT)).status = Status.Free) ∨
    (∀ i, i < K.MAX_TUPLES_COUNT → (S.blocks i).status ≠ Status.Free) := by
  by_cases h : ∃ k, k < K.MAX_TUPLES_COUNT ∧
      (S.blocks ((c + k) % K.MAX_TUPLES_COUNT)).status = Status.Free
  · left
    classical
    refine ⟨Nat.find h, (Nat.find_spec h).1, ?_, (Nat.find_spec h).2⟩
    intro j hj hfree
    exact Nat.find_min h hj ⟨lt_trans hj (Nat.find_spec h).1, hfree⟩
  · right
    intro i hi hfree
    obtain ⟨j, hj, e⟩ := probe_surj hc hi
    exact h ⟨j, hj, by rw [e]; exact hfree⟩

/-- The two outcomes of `findFreeBlock` from a cursor in range with no lock held. -/
theorem findFreeBlock_cases (K : Consts) (S : Shm) (c : Nat) (tr : List LockEv)
    (hc : c < K.MAX_TUPLES_COUNT) :
    (probeSeq K.MAX_TUPLES_COUNT c K.MAX_TUPLES_COUNT).Nodup ∧
    ((∃ k f B', k < K.MAX_TUPLES_COUNT ∧ f = (c + k) % K.MAX_TUPLES_COUNT ∧
        f < K.MAX_TUPLES_COUNT ∧
        (∀ a, a ∈ probeSeq K.MAX_TUPLES_COUNT c k → (S.blocks a).status ≠ Status.Free) ∧
        (S.blocks f).status = Status.Free ∧
        findFreeBlock K ⟨S, c, [], tr⟩ = Except.ok ((f : Int), B') ∧
        B'.currentAllocationIndex = f ∧
        B'.held = [Lock.elem f] ∧
        B'.trace = tr ++ probeTrace (probeSeq K.MAX_TUPLES_COUNT c k)
          ++ [LockEv.acquire (Lock.elem f)] ∧
        B'.shm.headIndex = S.headIndex ∧ B'.shm.tailIndex = S.tailIndex ∧
        B'.shm.blocks f = { S.blocks f with nextIndex := K.End } ∧
        (B'.shm.blocks f).status = Status.Free ∧
        (∀ i, i ≠ f → B'.shm.blocks i = S.blocks i)) ∨
     ((∀ i, i < K.MAX_TUPLES_COUNT → (S.blocks i).status ≠ Status.Free) ∧
        findFreeBlock K ⟨S, c, [], tr⟩ = Except.ok (K.Invalid,
          ⟨S, c, [], tr ++ probeTrace (probeSeq K.MAX_TUPLES_COUNT c K.MAX_TUPLES_COUNT)⟩))) := by
  refine ⟨probeSeq_nodup _ _ _ (le_refl _), ?_⟩
  rcases scan_cases K S c hc with ⟨k, hk, hbusy, hfree⟩ | hnone
  · left
    refine ⟨k, (c + k) % K.MAX_TUPLES_COUNT, _, hk, rfl, Nat.mod_lt _ (by omega), ?_, hfree,
      findFreeBlockLoop_found K S _ c k tr hc hk hbusy hfree, rfl, rfl, rfl, rfl, rfl, ?_, ?_, ?_⟩
    · intro a ha
      simp only [probeSeq, List.mem_map, List.mem_range] at ha
      obtain ⟨j, hj, rfl⟩ := ha
      exact hbusy j hj
    · simp [reserved]
    · simp [reserved, hfree]
    · intro i hi
      simp [reserved, Function.update_noteq hi]
  · right
    refine ⟨hnone, ?_⟩
    have := findFreeBlockLoop_none K S K.MAX_TUPLES_COUNT c tr hc
      (fun j _ => hnone _ (Nat.mod_lt _ (by omega)))
    rw [Nat.add_mod_right, Nat.mod_eq_of_lt hc] at this
    exact this

theorem natCast_ne_invalid {K : Consts} (hK : K.WF) {n : Nat} (h : n < K.MAX_TUPLES_COUNT) :
    (n : Int) ≠ K.Invalid := by
  obtain ⟨_, _, h3, _⟩ := hK
  omega

theorem natCast_ne_end {K : Consts} (hK : K.WF) {n : Nat} (h : n < K.MAX_TUPLES_COUNT) :
    (n : Int) ≠ K.End := by
  obtain ⟨h1, _⟩ := hK
  omega

theorem natCast_ne_rend {K : Consts} (hK : K.WF) {n : Nat} (h : n < K.MAX_TUPLES_COUNT) :
    (n : Int) ≠ K.REnd := by
  obtain ⟨_, h2, _⟩ := hK
  omega

/-- When `output` returns `out_of_memory`, and what it leaves behind. -/
theorem output_oom_cases (K : Consts) (hK : K.WF) (fuel : Nat) (t : Tuple)
    (S : Shm) (c : Nat) (tr : List LockEv) (hc : c < K.MAX_TUPLES_COUNT) :
    ((∃ B', output K fuel t ⟨S, c, [], tr⟩ = Except.ok (OutputResult.out_of_memory, B')) ↔
      ∀ i, i < K.MAX_TUPLES_COUNT → (S.blocks i).status ≠ Status.Free) ∧
    (∀ B', output K fuel t ⟨S, c, [], tr⟩ = Except.ok (OutputResult.out_of_memory, B') →
      B'.shm = S ∧ B'.currentAllocationIndex = c ∧ B'.held = []) := by
  have key : ∀ B', output K fuel t ⟨S, c, [], tr⟩ = Except.ok (OutputResult.out_of_memory, B') →
      (∀ i, i < K.MAX_TUPLES_COUNT → (S.blocks i).status ≠ Status.Free) ∧
      B'.shm = S ∧ B'.currentAllocationIndex = c ∧ B'.held = [] := by
    intro B' h
    have h1 := outputWith_out_of_memory h
    rcases (findFreeBlock_cases K S c tr hc).2 with
      ⟨k, f, B1, _, _, hf, _, _, h2, _⟩ | ⟨hnone, h2⟩
    · rw [h2] at h1
      simp only [Except.ok.injEq, Prod.mk.injEq] at h1
      exact absurd h1.1 (natCast_ne_invalid hK hf)
    · rw [h2] at h1
      simp only [Except.ok.injEq, Prod.mk.injEq, true_and] at h1
      subst h1
      exact ⟨hnone, rfl, rfl, rfl⟩
  refine ⟨⟨fun ⟨B', h⟩ => (key B' h).1, fun hnone => ?_⟩, fun B' h => (key B' h).2⟩
  rcases (findFreeBlock_cases K S c tr hc).2 with
    ⟨k, f, B1, _, _, hf, _, hfree, _⟩ | ⟨_, h2⟩
  · exact absurd hfree (hnone f hf)
  · refine ⟨⟨S, c, [], tr ++ probeTrace (probeSeq K.MAX_TUPLES_COUNT c K.MAX_TUPLES_COUNT)⟩, ?_⟩
    unfold output outputWith
    rw [h2]
    simp

/-! ### The insertion path under the list invariant -/

theorem getLastElem_end (K : Consts) (fuel : Nat) (S : Shm) (c : Nat) (h : List Lock)
    (tr : List LockEv) (htail : S.tailIndex = K.End) (hT : Lock.tailLock ∉ h) :
    getLastElem K (fuel + 1) ⟨S, c, h, tr⟩ = Except.ok (K.End, ⟨S, c, h,
      tr ++ [LockEv.acquire Lock.tailLock, LockEv.release Lock.tailLock,
        LockEv.acquire Lock.tailLock, LockEv.release Lock.tailLock]⟩) := by
  simp [getLastElem, Buffer.lock, Buffer.unlock, hT, htail]

theorem getLastElem_block (K : Consts) (hK : K.WF) (fuel : Nat) (S : Shm) (c : Nat)
    (h : List Lock) (tr : List LockEv) (t : Nat) (ht : t < K.MAX_TUPLES_COUNT)
    (htail : S.tailIndex = (t : Int)) (hst : (S.blocks t).status = Status.Valid)
    (hnx : (S.blocks t).nextIndex = K.End)
    (hT : Lock.tailLock ∉ h) (hE : Lock.elem t ∉ h) :
    getLastElem K (fuel + 1) ⟨S, c, h, tr⟩ = Except.ok ((t : Int), ⟨S, c, h,
      tr ++ [LockEv.acquire Lock.tailLock, LockEv.release Lock.tailLock,
        LockEv.acquire (Lock.elem t), LockEv.release (Lock.elem t)]⟩) := by
  simp [getLastElem, Buffer.lock, Buffer.unlock, hT, hE, htail, natCast_ne_end hK ht,
    Elem.lock, Elem.unlock, Elem.getStatus, Elem.getNextIndex, Elem.get, slot_natCast K ht,
    hst, hnx]

theorem chain_last {K : Consts} {S : Shm} : ∀ {l : List Nat} {i : Int} {t : Nat},
    Chain K S i l → l.getLast? = some t →
    t < K.MAX_TUPLES_COUNT ∧ (S.blocks t).nextIndex = K.End
  | [], _, _, _, h => by simp at h
  | [a], i, t, hc, h => by
    simp only [List.getLast?_singleton, Option.some.injEq] at h
    subst h
    exact ⟨hc.2.1, hc.2.2⟩
  | a :: b :: l, i, t, hc, h => by
    rw [List.getLast?_cons_cons] at h
    exact chain_last hc.2.2 h

theorem getLast?_mem {l : List Nat} {t : Nat} (h : l.getLast? = some t) : t ∈ l :=
  List.mem_of_getLast?_eq_some h

theorem lastOf_nil (K : Consts) : lastOf K [] = K.End := rfl

theorem lastOf_eq {K : Consts} {l : List Nat} {t : Nat} (h : l.getLast? = some t) :
    lastOf K l = (t : Int) := by
  simp [lastOf, h]

theorem output_linked (K : Consts) (hK : K.WF) (fuel : Nat) (tup : Tuple) (S : Shm)
    (c : Nat) (tr : List LockEv) (l : List Nat) (hinv : ListInvOn K S l)
    (hc : c < K.MAX_TUPLES_COUNT) (k : Nat) (hk : k < K.MAX_TUPLES_COUNT)
    (hbusy : ∀ j, j < k → (S.blocks ((c + j) % K.MAX_TUPLES_COUNT)).status ≠ Status.Free)
    (hfree : (S.blocks ((c + k) % K.MAX_TUPLES_COUNT)).status = Status.Free) :
    ∃ B', output K (fuel + 1) tup ⟨S, c, [], tr⟩ = Except.ok (OutputResult.success, B') ∧
      B'.shm = linked K S ((c + k) % K.MAX_TUPLES_COUNT) tup ∧
      B'.currentAllocationIndex = (c + k) % K.MAX_TUPLES_COUNT ∧ B'.held = [] := by
  obtain ⟨hchain, htail, hvalid, hfr⟩ := hinv
  have hf : (c + k) % K.MAX_TUPLES_COUNT < K.MAX_TUPLES_COUNT := Nat.mod_lt _ (by omega)
  have halloc := findFreeBlockLoop_found K S K.MAX_TUPLES_COUNT c k tr hc hk hbusy hfree
  generalize (c + k) % K.MAX_TUPLES_COUNT = f at hf hfree halloc
  have hfl : f ∉ l := by
    intro hmem
    have := hvalid f hf hmem
    rw [hfree] at this
    exact absurd this (by decide)
  unfold output outputWith findFreeBlock
  rw [halloc]
  simp only [ok_bind, natCast_ne_invalid hK hf, if_false]
  cases hl : l.getLast? with
  | none =>
    have hnil : l = [] := List.getLast?_eq_none_iff.mp hl
    subst hnil
    have hhead : S.headIndex = K.End := hchain
    have htl : S.tailIndex = K.End := htail
    rw [getLastElem_end K fuel (reserved K S f) _ _ _ htl (by simp)]
    simp only [ok_bind, id, outputLoop, if_true, Buffer.lock, pure_eq_ok,
      Elem.setPrevIndex, Elem.writeTuple, Elem.setStatus, Elem.unlock, Elem.getStatus, Elem.get,
      slot_natCast K hf, Buffer.modifyElem, Buffer.setHeadIndex, Buffer.setTailIndex,
      Buffer.unlock, Function.update_same, Function.update_idem]
    simp [linked, htl, hhead, reserved]
    funext i
    by_cases hi : i = f
    · subst hi
      simp
    · simp [hi, Function.update_noteq hi]
  | some t =>
    obtain ⟨ht, hnx⟩ := chain_last hchain hl
    have htm : t ∈ l := getLast?_mem hl
    have htl : S.tailIndex = (t : Int) := by rw [htail, lastOf_eq hl]
    have htf : t ≠ f := fun e => hfl (e ▸ htm)
    have hst : (S.blocks t).status = Status.Valid := hvalid t ht htm
    have hb : (reserved K S f).blocks t = S.blocks t := by
      simp [reserved, Function.update_noteq htf]
    rw [getLastElem_block K hK fuel (reserved K S f) _ _ _ t ht htl (by rw [hb]; exact hst)
      (by rw [hb]; exact hnx) (by simp) (by simp [htf])]
    simp only [ok_bind, id, outputLoop, natCast_ne_end hK ht, if_false, Buffer.lock, pure_eq_ok,
      Elem.lock, Elem.getNextIndex, Elem.setNextIndex,
      Elem.setPrevIndex, Elem.writeTuple, Elem.setStatus, Elem.unlock, Elem.getStatus, Elem.get,
      slot_natCast K hf, slot_natCast K ht, Buffer.modifyElem, Buffer.setHeadIndex,
      Buffer.setTailIndex, Buffer.unlock, Function.update_same, Function.update_idem]
    simp [linked, htl, reserved, htf, hnx, natCast_ne_end hK ht, Function.update_noteq htf,
      Function.update_noteq (Ne.symm htf), slot_natCast K ht]
    funext i
    by_cases hi : i = f
    · subst hi
      simp
    · by_cases hit : i = t
      · subst hit
        simp [hi, Function.update_noteq hi]
      · have : (i : Int) ≠ (t : Int) := by omega
        simp [hi, hit, this, Function.update_noteq hi, Function.update_noteq hit]

/-! ### Linking a block preserves the invariant -/

theorem chain_head_ne_end {K : Consts} (hK : K.WF) {S : Shm} {i : Int} {a : Nat} {l : List Nat}
    (h : Chain K S i (a :: l)) : i ≠ K.End := by
  rw [h.1]
  exact natCast_ne_end hK h.2.1

theorem linked_block_self (K : Consts) (S : Shm) (f : Nat) (t : Tuple) :
    (linked K S f t).blocks f =
      { status := Status.Valid, nextIndex := K.End,
        prevIndex := if S.tailIndex = K.End then K.REnd else S.tailIndex, tupleBody := t } := by
  simp [linked]

theorem linked_block_other (K : Consts) (S : Shm) (f : Nat) (t : Tuple) {i : Nat}
    (hi : i ≠ f) (hit : (i : Int) ≠ S.tailIndex) :
    (linked K S f t).blocks i = S.blocks i := by
  simp [linked, hi, hit]

theorem linked_block_tail (K : Consts) (S : Shm) (f : Nat) (t : Tuple) {i : Nat}
    (hi : i ≠ f) (hit : (i : Int) = S.tailIndex) (hne : S.tailIndex ≠ K.End) :
    (linked K S f t).blocks i = { S.blocks i with nextIndex := (f : Int) } := by
  simp [linked, hi, hit, hne]

theorem linked_status (K : Consts) (S : Shm) (f : Nat) (t : Tuple) {i : Nat} (hi : i ≠ f) :
    ((linked K S f t).blocks i).status = (S.blocks i).status := by
  simp only [linked, hi, if_false]
  split <;> rfl

theorem linked_prev (K : Consts) (S : Shm) (f : Nat) (t : Tuple) {i : Nat} (hi : i ≠ f) :
    ((linked K S f t).blocks i).prevIndex = (S.blocks i).prevIndex := by
  simp only [linked, hi, if_false]
  split <;> rfl

theorem linked_body (K : Consts) (S : Shm) (f : Nat) (t : Tuple) {i : Nat} (hi : i ≠ f) :
    ((linked K S f t).blocks i).tupleBody = (S.blocks i).tupleBody := by
  simp only [linked, hi, if_false]
  split <;> rfl

theorem chain_linked_aux (K : Consts) (hK : K.WF) (S : Shm) (f : Nat) (t : Tuple)
    (hf : f < K.MAX_TUPLES_COUNT) (hne : S.tailIndex ≠ K.End) :
    ∀ (l : List Nat) (i : Int), l ≠ [] → Chain K S i l → f ∉ l → S.tailIndex = lastOf K l →
      Chain K (linked K S f t) i (l ++ [f])
  | [], _, h, _, _, _ => absurd rfl h
  | [a], i, _, hc, hfl, htl => by
    have haf : a ≠ f := fun e => hfl (by simp [e])
    have hat : (a : Int) = S.tailIndex := by rw [htl]; rfl
    refine ⟨hc.1, hc.2.1, ?_⟩
    rw [linked_block_tail K S f t haf hat hne]
    exact ⟨rfl, hf, by rw [linked_block_self]; rfl⟩
  | a :: b :: l, i, _, hc, hfl, htl => by
    have haf : a ≠ f := fun e => hfl (by simp [e])
    have htl' : S.tailIndex = lastOf K (b :: l) := by
      rw [htl]
      simp [lastOf, List.getLast?_cons_cons]
    have hat : (a : Int) ≠ S.tailIndex := by
      intro e
      have hlast : (a :: b :: l).getLast? = some a := by
        cases hg : (a :: b :: l).getLast? with
        | none => simp at hg
        | some x =>
          have : (x : Int) = (a : Int) := by rw [e, htl, lastOf_eq hg]
          congr 1
          omega
      have := (chain_last hc hlast).2
      exact chain_head_ne_end hK hc.2.2 this
    refine ⟨hc.1, hc.2.1, ?_⟩
    rw [linked_block_other K S f t haf hat]
    exact chain_linked_aux K hK S f t hf hne (b :: l) _ (by simp) hc.2.2
      (fun hm => hfl (List.mem_cons_of_mem _ hm)) htl'

theorem lastOf_concat (K : Consts) (l : List Nat) (f : Nat) : lastOf K (l ++ [f]) = (f : Int) := by
  simp [lastOf]

theorem listInvOn_linked (K : Consts) (hK : K.WF) (S : Shm) (f : Nat) (t : Tuple)
    (l : List Nat) (hinv : ListInvOn K S l) (hf : f < K.MAX_TUPLES_COUNT)
    (hfree : (S.blocks f).status = Status.Free) :
    ListInvOn K (linked K S f t) (l ++ [f]) := by
  obtain ⟨hchain, htail, hvalid, hfr⟩ := hinv
  have hfl : f ∉ l := by
    intro hmem
    have := hvalid f hf hmem
    rw [hfree] at this
    exact absurd this (by decide)
  refine ⟨?_, ?_, ?_, ?_⟩
  · cases l with
    | nil =>
      have htl : S.tailIndex = K.End := htail
      refine ⟨by simp [linked, htl], hf, ?_⟩
      rw [linked_block_self]
      rfl
    | cons a l =>
      have hne : S.tailIndex ≠ K.End := by
        cases hg : (a :: l).getLast? with
        | none => simp at hg
        | some x =>
          rw [htail, lastOf_eq hg]
          exact natCast_ne_end hK (chain_last hchain hg).1
      have hh : (linked K S f t).headIndex = S.headIndex := by simp [linked, hne]
      rw [hh]
      exact chain_linked_aux K hK S f t hf hne (a :: l) _ (by simp) hchain hfl htail
  · rw [lastOf_concat]
    rfl
  · intro i hi hmem
    by_cases hif : i = f
    · subst hif
      rw [linked_block_self]
    · rw [linked_status K S f t hif]
      simp only [List.mem_append, List.mem_singleton, hif, or_false] at hmem
      exact hvalid i hi hmem
  · intro i hi hmem
    simp only [List.mem_append, List.mem_singleton, not_or] at hmem
    rw [linked_status K S f t hmem.2]
    exact hfr i hi hmem.1

theorem prevChain_linked_aux (K : Consts) (S : Shm) (f : Nat) (t : Tuple) :
    ∀ (l : List Nat) (p : Int), PrevChain S p l → f ∉ l →
      ((linked K S f t).blocks f).prevIndex =
        (match l.getLast? with
          | some a => (a : Int)
          | none => p) →
      PrevChain (linked K S f t) p (l ++ [f])
  | [], p, _, _, hlast => ⟨hlast, trivial⟩
  | a :: l, p, hp, hfl, hlast => by
    have haf : a ≠ f := fun e => hfl (by simp [e])
    refine ⟨by rw [linked_prev K S f t haf]; exact hp.1, ?_⟩
    refine prevChain_linked_aux K S f t l _ hp.2 (fun hm => hfl (List.mem_cons_of_mem _ hm)) ?_
    rw [hlast]
    cases l with
    | nil => rfl
    | cons b l =>
      rw [List.getLast?_cons_cons]
      cases hg : (b :: l).getLast? with
      | none => simp at hg
      | some x => rfl

theorem dlistInvOn_linked (K : Consts) (hK : K.WF) (S : Shm) (f : Nat) (t : Tuple)
    (l : List Nat) (hinv : DListInvOn K S l) (hf : f < K.MAX_TUPLES_COUNT)
    (hfree : (S.blocks f).status = Status.Free) :
    DListInvOn K (linked K S f t) (l ++ [f]) := by
  refine ⟨listInvOn_linked K hK S f t l hinv.1 hf hfree, ?_⟩
  obtain ⟨⟨hchain, htail, hvalid, hfr⟩, hprev⟩ := hinv
  have hfl : f ∉ l := by
    intro hmem
    have := hvalid f hf hmem
    rw [hfree] at this
    exact absurd this (by decide)
  apply prevChain_linked_aux K S f t l _ hprev hfl
  rw [linked_block_self]
  cases hg : l.getLast? with
  | none =>
    have : l = [] := List.getLast?_eq_none_iff.mp hg
    subst this
    have htl : S.tailIndex = K.End := htail
    simp [htl]
  | some x =>
    have hne : S.tailIndex ≠ K.End := by
      rw [htail, lastOf_eq hg]
      exact natCast_ne_end hK (chain_last hchain hg).1
    rw [if_neg hne, htail, lastOf_eq hg]

theorem listInv_of_on {K : Consts} (hK : K.WF) {S : Shm} {l : List Nat}
    (h : ListInvOn K S l) : ListInv K S := by
  refine ⟨?_, l, h⟩
  obtain ⟨hchain, htail, _, _⟩ := h
  cases l with
  | nil =>
    have h1 : S.headIndex = K.End := hchain
    have h2 : S.tailIndex = K.End := htail
    simp [h1, h2]
  | cons a l =>
    have h1 : S.headIndex ≠ K.End := chain_head_ne_end hK hchain
    have h2 : S.tailIndex ≠ K.End := by
      cases hg : (a :: l).getLast? with
      | none => simp at hg
      | some x =>
        rw [htail, lastOf_eq hg]
        exact natCast_ne_end hK (chain_last hchain hg).1
    simp [h1, h2]

theorem getFirstElem_ok (K : Consts) (hK : K.WF) (S : Shm) (c : Nat) (h : List Lock)
    (tr : List LockEv) (l : List Nat) (hinv : ListInvOn K S l) (hH : Lock.headLock ∉ h) :
    getFirstElem K ⟨S, c, h, tr⟩ = Except.ok (S.headIndex,
      ⟨S, c, h, tr ++ [LockEv.acquire Lock.headLock, LockEv.release Lock.headLock]⟩) := by
  obtain ⟨hchain, _, hvalid, _⟩ := hinv
  cases l with
  | nil =>
    have h1 : S.headIndex = K.End := hchain
    simp [getFirstElem, Buffer.lock, Buffer.unlock, hH, h1]
  | cons a l =>
    have h1 : S.headIndex = (a : Int) := hchain.1
    have ha : a < K.MAX_TUPLES_COUNT := hchain.2.1
    have hst := hvalid a ha (List.mem_cons_self _ _)
    simp [getFirstElem, Buffer.lock, Buffer.unlock, hH, h1, natCast_ne_end hK ha,
      Elem.getStatus, Elem.get, slot_natCast K ha, hst]

theorem listInv_init (K : Consts) : ListInvOn K (init K) [] := by
  refine ⟨rfl, rfl, ?_, ?_⟩
  · intro i _ hm
    simp at hm
  · intro i _ _
    rfl

theorem output_step (K : Consts) (hK : K.WF) (fuel : Nat) (tup : Tuple) (S : Shm)
    (c : Nat) (tr : List LockEv) (l : List Nat) (hfuel : 0 < fuel)
    (hc : c < K.MAX_TUPLES_COUNT) (hinv : ListInvOn K S l)
    (hex : ∃ i, i < K.MAX_TUPLES_COUNT ∧ (S.blocks i).status = Status.Free) :
    ∃ k f B', k < K.MAX_TUPLES_COUNT ∧ f = (c + k) % K.MAX_TUPLES_COUNT ∧
      f < K.MAX_TUPLES_COUNT ∧
      (∀ j, j < k → (S.blocks ((c + j) % K.MAX_TUPLES_COUNT)).status ≠ Status.Free) ∧
      (S.blocks f).status = Status.Free ∧
      output K fuel tup ⟨S, c, [], tr⟩ = Except.ok (OutputResult.success, B') ∧
      B'.shm = linked K S f tup ∧ B'.currentAllocationIndex = f ∧ B'.held = [] := by
  obtain ⟨n, rfl⟩ : ∃ n, fuel = n + 1 := ⟨fuel - 1, by omega⟩
  rcases scan_cases K S c hc with ⟨k, hk, hbusy, hfree⟩ | hnone
  · obtain ⟨B', h1, h2, h3, h4⟩ := output_linked K hK n tup S c tr l hinv hc k hk hbusy hfree
    exact ⟨k, _, B', hk, rfl, Nat.mod_lt _ (by omega), hbusy, hfree, h1, h2, h3, h4⟩
  · obtain ⟨i, hi, hfree⟩ := hex
    exact absurd hfree (hnone i hi)

/-- C2. From a state satisfying the list invariant with walk `l`, with at least one
`Free` block, a cursor in `0 .. N-1`, no lock held and positive fuel, `output` returns
`success` for a block `f` that was `Free`: the walk from the new head is `l` followed by
`f`; block `f` is `Valid` with `next = End`, payload the tuple and `prev` the old tail
(`REnd` when the list was empty, and then `head = f`); `tail = f`; the head is unchanged
when the list was not empty; status, `prev` and payload of every other block are
unchanged. -/
theorem output_appends (K : Consts) (hK : K.WF) (fuel : Nat) (tup : Tuple) (S : Shm)
    (c : Nat) (tr : List LockEv) (l : List Nat) (hfuel : 0 < fuel)
    (hc : c < K.MAX_TUPLES_COUNT) (hinv : ListInvOn K S l)
    (hex : ∃ i, i < K.MAX_TUPLES_COUNT ∧ (S.blocks i).status = Status.Free) :
    ∃ f B', f < K.MAX_TUPLES_COUNT ∧ (S.blocks f).status = Status.Free ∧
      output K fuel tup ⟨S, c, [], tr⟩ = Except.ok (OutputResult.success, B') ∧
      Chain K B'.shm B'.shm.headIndex (l ++ [f]) ∧
      B'.shm.blocks f = Elem.mk Status.Valid K.End (if l = [] then K.REnd else S.tailIndex) tup ∧
      B'.shm.tailIndex = (f : Int) ∧
      (l = [] → B'.shm.headIndex = (f : Int)) ∧
      (l ≠ [] → B'.shm.headIndex = S.headIndex) ∧
      (∀ i, i ≠ f → (B'.shm.blocks i).status = (S.blocks i).status ∧
        (B'.shm.blocks i).prevIndex = (S.blocks i).prevIndex ∧
        (B'.shm.blocks i).tupleBody = (S.blocks i).tupleBody) := by
  obtain ⟨k, f, B', _, _, hf, _, hfree, hout, hshm, _, _⟩ :=
    output_step K hK fuel tup S c tr l hfuel hc hinv hex
  have hnew := listInvOn_linked K hK S f tup l hinv hf hfree
  have hiff := (listInv_of_on hK hinv).1
  have htl : S.tailIndex = K.End ↔ l = [] := by
    constructor
    · intro h
      cases l with
      | nil => rfl
      | cons a l => exact absurd (hiff.mpr h) (chain_head_ne_end hK hinv.1)
    · intro h
      subst h
      exact hinv.2.1
  refine ⟨f, B', hf, hfree, hout, ?_, ?_, ?_, ?_, ?_, ?_⟩
  · rw [hshm]
    exact hnew.1
  · rw [hshm, linked_block_self]
    by_cases hl : l = []
    · simp [hl, htl.mpr hl]
    · simp [hl, mt htl.mp hl]
  · rw [hshm]
    rfl
  · intro hl
    rw [hshm]
    simp [linked, htl.mpr hl]
  · intro hl
    rw [hshm]
    simp [linked, mt htl.mp hl]
  · intro i hi
    rw [hshm]
    exact ⟨linked_status K S f tup hi, linked_prev K S f tup hi, linked_body K S f tup hi⟩

/-- C6. The state produced by `init` satisfies the list invariant. From a state that
satisfies it, with a cursor in `0 .. N-1`, no lock held and positive fuel, `output`
returns (with `success` or `out_of_memory`, so the assertion at its end does not fail),
and the state it leaves satisfies the invariant again, with the cursor in `0 .. N-1` and
no lock held; `getFirstElem` returns the head in the state before and in the state after
the call, so its assertion does not fail either. -/
theorem listInv_init_output (K : Consts) (hK : K.WF) (fuel : Nat) (tup : Tuple) (S : Shm)
    (c : Nat) (tr : List LockEv) (hfuel : 0 < fuel) (hc : c < K.MAX_TUPLES_COUNT)
    (hinv : ListInv K S) :
    ListInv K (init K) ∧
    (∃ B0, getFirstElem K ⟨S, c, [], tr⟩ = Except.ok (S.headIndex, B0)) ∧
    ∃ r B', output K fuel tup ⟨S, c, [], tr⟩ = Except.ok (r, B') ∧
      ListInv K B'.shm ∧ B'.Idle K ∧
      ∃ B'', getFirstElem K B' = Except.ok (B'.shm.headIndex, B'') := by
  obtain ⟨_, l, hl⟩ := hinv
  refine ⟨listInv_of_on hK (listInv_init K), ⟨_, getFirstElem_ok K hK S c [] tr l hl (by simp)⟩, ?_⟩
  by_cases hex : ∃ i, i < K.MAX_TUPLES_COUNT ∧ (S.blocks i).status = Status.Free
  · obtain ⟨k, f, B', _, _, hf, _, hfree, hout, hshm, hcur, hheld⟩ :=
      output_step K hK fuel tup S c tr l hfuel hc hl hex
    have hnew := listInvOn_linked K hK S f tup l hl hf hfree
    rw [← hshm] at hnew
    refine ⟨_, B', hout, listInv_of_on hK hnew, ⟨by rw [hcur]; exact hf, hheld⟩, ?_⟩
    obtain ⟨S', c', h', tr'⟩ := B'
    simp only at hheld hnew
    subst hheld
    exact ⟨_, getFirstElem_ok K hK S' c' [] tr' _ hnew (by simp)⟩
  · have hnone : ∀ i, i < K.MAX_TUPLES_COUNT → (S.blocks i).status ≠ Status.Free :=
      fun i hi hfree => hex ⟨i, hi, hfree⟩
    obtain ⟨B', hout⟩ := ((output_oom_cases K hK fuel tup S c tr hc).1).mpr hnone
    obtain ⟨h1, h2, h3⟩ := (output_oom_cases K hK fuel tup S c tr hc).2 B' hout
    refine ⟨_, B', hout, ?_, ⟨by rw [h2]; exact hc, h3⟩, ?_⟩
    · rw [h1]
      exact listInv_of_on hK hl
    · obtain ⟨S', c', h', tr'⟩ := B'
      simp only at h1 h3
      subst h1 h3
      exact ⟨_, getFirstElem_ok K hK S' c' [] tr' l hl (by simp)⟩

/-! ### Walks: uniqueness, distinctness, counting -/

theorem chain_lt {K : Consts} {S : Shm} : ∀ {l : List Nat} {i : Int},
    Chain K S i l → ∀ a, a ∈ l → a < K.MAX_TUPLES_COUNT
  | [], _, _, a, h => by simp at h
  | b :: l, _, hc, a, h => by
    rcases List.mem_cons.mp h with rfl | h
    · exact hc.2.1
    · exact chain_lt hc.2.2 a h

theorem chain_unique {K : Consts} (hK : K.WF) {S : Shm} : ∀ {l l' : List Nat} {i : Int},
    Chain K S i l → Chain K S i l' → l = l'
  | [], [], _, _, _ => rfl
  | [], b :: l', _, h, h' => absurd h (chain_head_ne_end hK h')
  | a :: l, [], _, h, h' => absurd h' (chain_head_ne_end hK h)
  | a :: l, b :: l', i, h, h' => by
    have e : a = b := by
      have := h.1.symm.trans h'.1
      omega
    subst e
    rw [chain_unique hK h.2.2 h'.2.2]

theorem chain_split {K : Consts} {S : Shm} : ∀ {l1 : List Nat} {a : Nat} {l2 : List Nat} {i : Int},
    Chain K S i (l1 ++ a :: l2) → Chain K S (a : Int) (a :: l2)
  | [], _, _, _, h => ⟨rfl, h.2.1, h.2.2⟩
  | _ :: l1, a, l2, _, h => @chain_split K S l1 a l2 _ h.2.2

theorem chain_nodup {K : Consts} (hK : K.WF) {S : Shm} : ∀ {l : List Nat} {i : Int},
    Chain K S i l → l.Nodup
  | [], _, _ => List.nodup_nil
  | a :: l, i, h => by
    refine List.nodup_cons.mpr ⟨?_, chain_nodup hK h.2.2⟩
    intro hm
    obtain ⟨l1, l2, e⟩ := List.append_of_mem hm
    have h2 : Chain K S (S.blocks a).nextIndex (l1 ++ a :: l2) := by rw [← e]; exact h.2.2
    have h3 := (chain_split h2).2.2
    have h4 := chain_unique hK h2 h3
    have := congrArg List.length h4
    simp at this
    omega

theorem nodup_full {N : Nat} {l : List Nat} (hn : l.Nodup) (hlt : ∀ a, a ∈ l → a < N)
    (hall : ∀ i, i < N → i ∈ l) : l.length = N := by
  have h1 : l.toFinset = Finset.range N := by
    ext i
    simp only [List.mem_toFinset, Finset.mem_range]
    exact ⟨hlt i, hall i⟩
  have h2 := List.toFinset_card_of_nodup hn
  rw [h1, Finset.card_range] at h2
  exact h2.symm

theorem nodup_has_free {N : Nat} {l : List Nat} (hn : l.Nodup) (hlt : ∀ a, a ∈ l → a < N)
    (hlen : l.length < N) : ∃ i, i < N ∧ i ∉ l := by
  by_contra hcon
  push_neg at hcon
  have := nodup_full hn hlt hcon
  omega

theorem nodup_all_mem {N : Nat} {l : List Nat} (hn : l.Nodup) (hlt : ∀ a, a ∈ l → a < N)
    (hlen : l.length = N) : ∀ i, i < N → i ∈ l := by
  intro i hi
  have h1 : l.toFinset ⊆ Finset.range N := by
    intro a ha
    rw [List.mem_toFinset] at ha
    exact Finset.mem_range.mpr (hlt a ha)
  have h2 : l.toFinset = Finset.range N := by
    apply Finset.eq_of_subset_of_card_le h1
    rw [List.toFinset_card_of_nodup hn, Finset.card_range, hlen]
  have : i ∈ l.toFinset := by rw [h2]; exact Finset.mem_range.mpr hi
  exact List.mem_toFinset.mp this

theorem lastOf_eq_lastOr (K : Consts) (l : List Nat) : lastOf K l = lastOr K.End l := rfl

theorem lastOr_nil (p : Int) : lastOr p [] = p := rfl

theorem lastOr_concat (p : Int) (l : List Nat) (a : Nat) : lastOr p (l ++ [a]) = (a : Int) := by
  simp [lastOr]

theorem lastOr_cons (p : Int) (a : Nat) (l : List Nat) : lastOr p (a :: l) = lastOr (a : Int) l := by
  cases l with
  | nil => rfl
  | cons b l =>
    simp only [lastOr, List.getLast?_cons_cons]
    cases hg : (b :: l).getLast? with
    | none => simp at hg
    | some x => rfl

theorem lastOr_append_cons (p : Int) (l1 : List Nat) (a : Nat) (l2 : List Nat) :
    lastOr p (l1 ++ a :: l2) = lastOr (a : Int) l2 := by
  induction l1 generalizing p with
  | nil => exact lastOr_cons p a l2
  | cons b l1 ih => rw [List.cons_append, lastOr_cons, ih]

theorem chain_iff_chainTo {K : Consts} {S : Shm} : ∀ {l : List Nat} {i : Int},
    Chain K S i l ↔ ChainTo K S K.End i l
  | [], _ => Iff.rfl
  | a :: l, _ => by
    simp only [Chain, ChainTo]
    rw [@chain_iff_chainTo K S l _]

theorem chainTo_append {K : Consts} {S : Shm} {j : Int} : ∀ {l1 l2 : List Nat} {i : Int},
    ChainTo K S j i (l1 ++ l2) ↔ ∃ m, ChainTo K S m i l1 ∧ ChainTo K S j m l2
  | [], l2, i => by
    simp only [List.nil_append, ChainTo]
    exact ⟨fun h => ⟨i, rfl, h⟩, fun ⟨m, h1, h2⟩ => h1 ▸ h2⟩
  | a :: l1, l2, i => by
    have ih := @chainTo_append K S j l1 l2 (S.blocks a).nextIndex
    show _ ∧ _ ∧ ChainTo K S j _ (l1 ++ l2) ↔ ∃ m, (_ ∧ _ ∧ ChainTo K S m _ l1) ∧ _
    rw [ih]
    constructor
    · rintro ⟨h1, h2, m, h3, h4⟩
      exact ⟨m, ⟨h1, h2, h3⟩, h4⟩
    · rintro ⟨m, ⟨h1, h2, h3⟩, h4⟩
      exact ⟨h1, h2, m, h3, h4⟩

theorem chainTo_congr {K : Consts} {S S' : Shm} {j : Int} : ∀ {l : List Nat} {i : Int},
    (∀ x, x ∈ l → (S'.blocks x).nextIndex = (S.blocks x).nextIndex) →
    ChainTo K S j i l → ChainTo K S' j i l
  | [], _, _, h => h
  | a :: l, _, hx, h => by
    refine ⟨h.1, h.2.1, ?_⟩
    rw [hx a (List.mem_cons_self _ _)]
    exact chainTo_congr (fun x hm => hx x (List.mem_cons_of_mem _ hm)) h.2.2

theorem prevChain_append {S : Shm} : ∀ {l1 l2 : List Nat} {p : Int},
    PrevChain S p (l1 ++ l2) ↔ PrevChain S p l1 ∧ PrevChain S (lastOr p l1) l2
  | [], l2, p => by simp [PrevChain, lastOr_nil]
  | a :: l1, l2, p => by
    have ih := @prevChain_append S l1 l2 (a : Int)
    show _ ∧ PrevChain S _ (l1 ++ l2) ↔ (_ ∧ PrevChain S _ l1) ∧ _
    rw [ih, lastOr_cons]
    exact and_assoc.symm

theorem prevChain_congr {S S' : Shm} : ∀ {l : List Nat} {p : Int},
    (∀ x, x ∈ l → (S'.blocks x).prevIndex = (S.blocks x).prevIndex) →
    PrevChain S p l → PrevChain S' p l
  | [], _, _, _ => trivial
  | a :: l, _, hx, h => by
    refine ⟨by rw [hx a (List.mem_cons_self _ _)]; exact h.1, ?_⟩
    exact prevChain_congr (fun x hm => hx x (List.mem_cons_of_mem _ hm)) h.2

/-! ### Unlinking a block preserves the invariant -/

theorem unlinked_self (K : Consts) (S : Shm) (a : Nat) :
    (unlinked K S a).blocks a = { S.blocks a with status := Status.Free } := by
  simp [unlinked]

theorem unlinked_status (K : Consts) (S : Shm) (a : Nat) {x : Nat} (hx : x ≠ a) :
    ((unlinked K S a).blocks x).status = (S.blocks x).status := by
  simp only [unlinked, hx, if_false]
  split
  · rfl
  · split <;> rfl

theorem unlinked_body (K : Consts) (S : Shm) (a : Nat) {x : Nat} (hx : x ≠ a) :
    ((unlinked K S a).blocks x).tupleBody = (S.blocks x).tupleBody := by
  simp only [unlinked, hx, if_false]
  split
  · rfl
  · split <;> rfl

theorem unlinked_next_other (K : Consts) (S : Shm) (a : Nat) {x : Nat} (hx : x ≠ a)
    (h : (x : Int) ≠ (S.blocks a).prevIndex ∨ (S.blocks a).prevIndex = K.REnd) :
    ((unlinked K S a).blocks x).nextIndex = (S.blocks x).nextIndex := by
  have hn : ¬ ((S.blocks a).prevIndex ≠ K.REnd ∧ (x : Int) = (S.blocks a).prevIndex) := by
    rintro ⟨h1, h2⟩
    rcases h with h | h
    · exact h h2
    · exact h1 h
  simp only [unlinked, hx, if_false, hn]
  split <;> rfl

theorem unlinked_next_pred (K : Consts) (S : Shm) (a : Nat) {x : Nat} (hx : x ≠ a)
    (h1 : (x : Int) = (S.blocks a).prevIndex) (h2 : (S.blocks a).prevIndex ≠ K.REnd) :
    ((unlinked K S a).blocks x).nextIndex = (S.blocks a).nextIndex := by
  simp [unlinked, hx, h1, h2]

theorem unlinked_prev_other (K : Consts) (S : Shm) (a : Nat) {x : Nat} (hx : x ≠ a)
    (h : (x : Int) ≠ (S.blocks a).nextIndex ∨ (S.blocks a).nextIndex = K.End) :
    ((unlinked K S a).blocks x).prevIndex = (S.blocks x).prevIndex := by
  have hn : ¬ ((S.blocks a).nextIndex ≠ K.End ∧ (x : Int) = (S.blocks a).nextIndex) := by
    rintro ⟨h1, h2⟩
    rcases h with h | h
    · exact h h2
    · exact h1 h
  simp only [unlinked, hx, if_false, hn]
  split <;> rfl

theorem unlinked_prev_succ (K : Consts) (S : Shm) (a : Nat) {x : Nat} (hx : x ≠ a)
    (h1 : (x : Int) = (S.blocks a).nextIndex) (h2 : (S.blocks a).nextIndex ≠ K.End)
    (h : (x : Int) ≠ (S.blocks a).prevIndex ∨ (S.blocks a).prevIndex = K.REnd) :
    ((unlinked K S a).blocks x).prevIndex = (S.blocks a).prevIndex := by
  have hn : ¬ ((S.blocks a).prevIndex ≠ K.REnd ∧ (x : Int) = (S.blocks a).prevIndex) := by
    rintro ⟨h3, h4⟩
    rcases h with h | h
    · exact h h4
    · exact h3 h
  have hy : (S.blocks a).nextIndex ≠ K.End ∧ (x : Int) = (S.blocks a).nextIndex := ⟨h2, h1⟩
  simp only [unlinked]
  rw [if_neg hx, if_neg hn, if_pos hy]

/-- What the invariant says about a block `a` of the walk `l1 ++ a :: l2`. -/
theorem dlistInvOn_at {K : Consts} (hK : K.WF) {S : Shm} {l1 l2 : List Nat} {a : Nat}
    (hinv : DListInvOn K S (l1 ++ a :: l2)) :
    a < K.MAX_TUPLES_COUNT ∧ a ∉ l1 ∧ a ∉ l2 ∧ (∀ x, x ∈ l1 → x ∉ l2) ∧
    ChainTo K S (a : Int) S.headIndex l1 ∧ Chain K S (S.blocks a).nextIndex l2 ∧
    (S.blocks a).prevIndex = lastOr K.REnd l1 ∧
    PrevChain S K.REnd l1 ∧ PrevChain S (a : Int) l2 ∧
    (S.blocks a).status = Status.Valid := by
  obtain ⟨⟨hchain, _, hvalid, _⟩, hprev⟩ := hinv
  have hnd := chain_nodup hK hchain
  have hsplit := hchain
  rw [chain_iff_chainTo, chainTo_append] at hsplit
  obtain ⟨m, hm1, hm2, hm3, hm4⟩ := hsplit
  subst hm2
  rw [prevChain_append] at hprev
  obtain ⟨hp1, hp2, hp3⟩ := hprev
  rw [List.nodup_append] at hnd
  obtain ⟨_, hnd2, hdisj⟩ := hnd
  rw [List.nodup_cons] at hnd2
  refine ⟨hm3, ?_, hnd2.1, ?_, hm1, chain_iff_chainTo.mpr hm4, hp2, hp1, hp3, ?_⟩
  · intro h
    exact hdisj h (List.mem_cons_self _ _)
  · intro x hx1 hx2
    exact hdisj hx1 (List.mem_cons_of_mem _ hx2)
  · exact hvalid a hm3 (by simp)

theorem lastOr_ne_rend {K : Consts} (hK : K.WF) {l : List Nat} (hne : l ≠ [])
    (hlt : ∀ x, x ∈ l → x < K.MAX_TUPLES_COUNT) :
    ∃ p, p ∈ l ∧ lastOr K.REnd l = (p : Int) ∧ (p : Int) ≠ K.REnd := by
  cases hg : l.getLast? with
  | none => exact absurd (List.getLast?_eq_none_iff.mp hg) hne
  | some p =>
    have hm := getLast?_mem hg
    exact ⟨p, hm, by simp [lastOr, hg], natCast_ne_rend hK (hlt p hm)⟩

theorem chainTo_lt {K : Consts} {S : Shm} {j : Int} : ∀ {l : List Nat} {i : Int},
    ChainTo K S j i l → ∀ a, a ∈ l → a < K.MAX_TUPLES_COUNT
  | [], _, _, a, h => by simp at h
  | b :: l, _, hc, a, h => by
    rcases List.mem_cons.mp h with rfl | h
    · exact hc.2.1
    · exact chainTo_lt hc.2.2 a h

theorem lastOr_of_ne_nil (p q : Int) {l : List Nat} (hne : l ≠ []) : lastOr p l = lastOr q l := by
  cases l with
  | nil => exact absurd rfl hne
  | cons a l => rw [lastOr_cons, lastOr_cons]

theorem dlistInvOn_unlinked (K : Consts) (hK : K.WF) (S : Shm) (l1 : List Nat) (a : Nat)
    (l2 : List Nat) (hinv : DListInvOn K S (l1 ++ a :: l2)) :
    DListInvOn K (unlinked K S a) (l1 ++ l2) := by
  obtain ⟨ha, ha1, ha2, hdisj, hto, hnx, hpv, hp1, hp3, _⟩ := dlistInvOn_at hK hinv
  obtain ⟨⟨hchain, htail, hvalid, hfr⟩, _⟩ := hinv
  have hnd := chain_nodup hK hchain
  rw [List.nodup_append] at hnd
  obtain ⟨hnd1, hnd2, _⟩ := hnd
  rw [List.nodup_cons] at hnd2
  have hlt1 := chainTo_lt hto
  have hlt2 := chain_lt hnx
  -- the `next` of the blocks after `a` is not touched
  have hN2 : ∀ x, x ∈ l2 →
      ((unlinked K S a).blocks x).nextIndex = (S.blocks x).nextIndex := by
    intro x hx
    apply unlinked_next_other K S a (fun e => ha2 (e ▸ hx))
    by_cases hl1 : l1 = []
    · right
      rw [hpv, hl1, lastOr_nil]
    · left
      obtain ⟨p, hp, e, _⟩ := lastOr_ne_rend hK hl1 hlt1
      rw [hpv, e]
      intro e2
      have : x = p := by omega
      exact hdisj p hp (this ▸ hx)
  -- the `prev` of the blocks before `a` is not touched
  have hP1 : ∀ x, x ∈ l1 →
      ((unlinked K S a).blocks x).prevIndex = (S.blocks x).prevIndex := by
    intro x hx
    apply unlinked_prev_other K S a (fun e => ha1 (e ▸ hx))
    cases l2 with
    | nil => exact Or.inr hnx
    | cons b l2 =>
      left
      rw [hnx.1]
      intro e2
      have : x = b := by omega
      exact hdisj x hx (this ▸ List.mem_cons_self _ _)
  have hchain2 : Chain K (unlinked K S a) (S.blocks a).nextIndex l2 :=
    chain_iff_chainTo.mpr (chainTo_congr hN2 (chain_iff_chainTo.mp hnx))
  refine ⟨⟨?_, ?_, ?_, ?_⟩, ?_⟩
  · -- the walk
    rcases List.eq_nil_or_concat l1 with hl1 | ⟨L, p, hl1⟩
    · subst hl1
      have hpr : (S.blocks a).prevIndex = K.REnd := hpv
      have hh : (unlinked K S a).headIndex = (S.blocks a).nextIndex := by
        simp [unlinked, hpr]
      rw [hh]
      exact hchain2
    · rw [List.concat_eq_append] at hl1
      subst hl1
      have hpr : (S.blocks a).prevIndex = (p : Int) := by rw [hpv, lastOr_concat]
      have hpl : p < K.MAX_TUPLES_COUNT := hlt1 p (by simp)
      have hpne : (S.blocks a).prevIndex ≠ K.REnd := by
        rw [hpr]
        exact natCast_ne_rend hK hpl
      have hh : (unlinked K S a).headIndex = S.headIndex := by
        simp [unlinked, hpne]
      have hpa : p ≠ a := fun e => ha1 (by simp [e])
      rw [hh, chain_iff_chainTo, List.append_assoc, chainTo_append]
      rw [chainTo_append] at hto
      obtain ⟨m, hm1, hm2, hm3, hm4⟩ := hto
      refine ⟨m, chainTo_congr ?_ hm1, hm2, hm3, ?_⟩
      · intro x hx
        apply unlinked_next_other K S a (fun e => ha1 (by simp [← e, hx]))
        left
        rw [hpr]
        intro e2
        have : x = p := by omega
        rw [List.nodup_append] at hnd1
        exact hnd1.2.2 hx (by simp [this])
      · rw [unlinked_next_pred K S a hpa hpr.symm hpne]
        exact chain_iff_chainTo.mp hchain2
  · -- the tail
    show (unlinked K S a).tailIndex = lastOf K (l1 ++ l2)
    cases l2 with
    | nil =>
      have hne : (S.blocks a).nextIndex = K.End := hnx
      rw [List.append_nil]
      by_cases hl1 : l1 = []
      · subst hl1
        have hpr : (S.blocks a).prevIndex = K.REnd := hpv
        simp [unlinked, hne, hpr, lastOf_nil]
      · obtain ⟨p, hp, e, hpne⟩ := lastOr_ne_rend hK hl1 hlt1
        have hpr : (S.blocks a).prevIndex = (p : Int) := by rw [hpv, e]
        rw [lastOf_eq_lastOr, lastOr_of_ne_nil K.End K.REnd hl1, e]
        simp [unlinked, hne, hpr, hpne]
    | cons b l2 =>
      have hne : (S.blocks a).nextIndex ≠ K.End := chain_head_ne_end hK hnx
      have : (unlinked K S a).tailIndex = S.tailIndex := by simp [unlinked, hne]
      rw [this, htail, lastOf_eq_lastOr, lastOf_eq_lastOr, lastOr_append_cons, lastOr_append_cons,
        lastOr_cons]
  · intro i hi hmem
    have hia : i ≠ a := by
      intro e
      subst e
      rcases List.mem_append.mp hmem with h | h
      · exact ha1 h
      · exact ha2 h
    rw [unlinked_status K S a hia]
    apply hvalid i hi
    rcases List.mem_append.mp hmem with h | h
    · exact List.mem_append.mpr (Or.inl h)
    · exact List.mem_append.mpr (Or.inr (List.mem_cons_of_mem _ h))
  · intro i hi hmem
    by_cases hia : i = a
    · subst hia
      rw [unlinked_self]
    · rw [unlinked_status K S a hia]
      apply hfr i hi
      intro h
      apply hmem
      rcases List.mem_append.mp h with h | h
      · exact List.mem_append.mpr (Or.inl h)
      · rcases List.mem_cons.mp h with h | h
        · exact absurd h hia
        · exact List.mem_append.mpr (Or.inr h)
  · -- the backward links
    rw [prevChain_append]
    refine ⟨prevChain_congr hP1 hp1, ?_⟩
    cases l2 with
    | nil => trivial
    | cons b l2 =>
      have hb : (b : Int) = (S.blocks a).nextIndex := hnx.1.symm
      have hne : (S.blocks a).nextIndex ≠ K.End := chain_head_ne_end hK hnx
      have hba : b ≠ a := fun e => ha2 (by simp [e])
      refine ⟨?_, prevChain_congr ?_ hp3.2⟩
      · rw [unlinked_prev_succ K S a hba hb hne, hpv]
        by_cases hl1 : l1 = []
        · right
          rw [hpv, hl1, lastOr_nil]
        · left
          obtain ⟨p, hp, e, _⟩ := lastOr_ne_rend hK hl1 hlt1
          rw [hpv, e]
          intro e2
          have : b = p := by omega
          exact hdisj p hp (this ▸ List.mem_cons_self _ _)
      · intro x hx
        apply unlinked_prev_other K S a (fun e => ha2 (by simp [← e, hx]))
        left
        rw [← hb]
        intro e2
        have : x = b := by omega
        exact (List.nodup_cons.mp hnd2.2).1 (this ▸ hx)

/-! ### The retrieval path -/

theorem elem_read_eq (K : Consts) (q : Query) (S : Shm) (c : Nat) (tr : List LockEv)
    (a : Nat) (ha : a < K.MAX_TUPLES_COUNT) :
    Elem.read K q (a : Int) ⟨S, c, [], tr⟩ =
      Except.ok (if q.matchesTuple (S.blocks a).tupleBody then some (S.blocks a).tupleBody else none,
        ⟨S, c, [], tr ++ [LockEv.acquire (Lock.elem a), LockEv.release (Lock.elem a)]⟩) := by
  by_cases hm : q.matchesTuple (S.blocks a).tupleBody = true <;>
    simp [Elem.read, Elem.lock, Elem.unlock, Elem.get, slot_natCast K ha, Buffer.lock,
      Buffer.unlock, hm]

theorem elem_take_none (K : Consts) (q : Query) (S : Shm) (c : Nat) (tr : List LockEv)
    (a : Nat) (ha : a < K.MAX_TUPLES_COUNT) (hm : q.matchesTuple (S.blocks a).tupleBody = false) :
    Elem.take K q (a : Int) ⟨S, c, [], tr⟩ =
      Except.ok (none,
        ⟨S, c, [], tr ++ [LockEv.acquire (Lock.elem a), LockEv.release (Lock.elem a)]⟩) := by
  simp [Elem.take, Elem.lock, Elem.unlock, Elem.get, slot_natCast K ha, Buffer.lock,
    Buffer.unlock, hm]

theorem elem_next_eq (K : Consts) (S : Shm) (c : Nat) (tr : List LockEv)
    (a : Nat) (ha : a < K.MAX_TUPLES_COUNT) :
    Elem.next K (a : Int) ⟨S, c, [], tr⟩ =
      if (S.blocks a).nextIndex = K.End then
        Except.ok (false, (a : Int), ⟨S, c, [], tr ++ [LockEv.acquire (Lock.elem a),
          LockEv.release (Lock.elem a), LockEv.acquire Lock.condMutex,
          LockEv.release Lock.condMutex]⟩)
      else
        Except.ok (true, (S.blocks a).nextIndex, ⟨S, c, [],
          tr ++ [LockEv.acquire (Lock.elem a), LockEv.release (Lock.elem a)]⟩) := by
  by_cases hn : (S.blocks a).nextIndex = K.End <;>
    simp [Elem.next, Elem.lock, Elem.unlock, Elem.getNextIndex, Elem.get, slot_natCast K ha,
      Buffer.lock, Buffer.unlock, Cond.wait, hn]

theorem elem_take_some (K : Consts) (hK : K.WF) (q : Query) (S : Shm) (c : Nat)
    (tr : List LockEv) (l1 : List Nat) (a : Nat) (l2 : List Nat)
    (hinv : DListInvOn K S (l1 ++ a :: l2))
    (hm : q.matchesTuple (S.blocks a).tupleBody = true) :
    ∃ B', Elem.take K q (a : Int) ⟨S, c, [], tr⟩ =
      Except.ok (some (S.blocks a).tupleBody, B') ∧ B'.shm = unlinked K S a ∧
      B'.currentAllocationIndex = c ∧ B'.held = [] := by
  obtain ⟨ha, ha1, ha2, hdisj, hto, hnx, hpv, _, _, _⟩ := dlistInvOn_at hK hinv
  have hlt1 := chainTo_lt hto
  have hprev : (S.blocks a).prevIndex = K.REnd ∨ ∃ p : Nat, (S.blocks a).prevIndex = (p : Int) ∧
      p < K.MAX_TUPLES_COUNT ∧ p ≠ a ∧ (p : Int) ≠ K.REnd ∧ p ∉ l2 := by
    by_cases hl1 : l1 = []
    · left
      rw [hpv, hl1, lastOr_nil]
    · right
      obtain ⟨p, hp, e, hne⟩ := lastOr_ne_rend hK hl1 hlt1
      exact ⟨p, by rw [hpv, e], hlt1 p hp, fun e2 => ha1 (e2 ▸ hp), hne, hdisj p hp⟩
  have hnext : (S.blocks a).nextIndex = K.End ∨ ∃ b : Nat, (S.blocks a).nextIndex = (b : Int) ∧
      b < K.MAX_TUPLES_COUNT ∧ b ≠ a ∧ (b : Int) ≠ K.End ∧ b ∈ l2 := by
    cases l2 with
    | nil => exact Or.inl hnx
    | cons b l2 =>
      right
      exact ⟨b, hnx.1, hnx.2.1, fun e => ha2 (by simp [e]), natCast_ne_end hK hnx.2.1, by simp⟩
  rcases hprev with hp | ⟨p, hp, hpl, hpa, hpne, hpl2⟩ <;>
  rcases hnext with hn | ⟨b, hn, hbl, hba, hbne, hbl2⟩
  · simp only [Elem.take, Elem.lock, Elem.unlock, Elem.get, Elem.setStatus, slot_natCast K ha,
      Buffer.lock, Buffer.unlock, hm, hp, hn, ok_bind, pure_eq_ok, if_true, List.not_mem_nil,
      if_false, Buffer.setHeadIndex, Buffer.setTailIndex, Buffer.modifyElem,
      List.erase_cons_head]
    refine ⟨_, rfl, ?_, rfl, rfl⟩
    simp only [unlinked, hp, hn, if_true, ne_eq, not_true_eq_false, false_and, if_false]
    congr 1
    funext i
    by_cases hi : i = a
    · subst hi
      simp
    · simp [hi, Function.update_noteq hi]
  · simp only [Elem.take, Elem.lock, Elem.unlock, Elem.get, Elem.setStatus, Elem.setPrevIndex,
      slot_natCast K ha, slot_natCast K hbl,
      Buffer.lock, Buffer.unlock, hm, hp, hn, hbne, ok_bind, pure_eq_ok, if_true,
      List.not_mem_nil, if_false, Buffer.setHeadIndex, Buffer.setTailIndex, Buffer.modifyElem,
      List.erase_cons_head]
    refine ⟨_, rfl, ?_, rfl, rfl⟩
    simp only [unlinked, hp, hn, hbne, if_true, ne_eq, not_true_eq_false, false_and, if_false,
      not_false_eq_true, true_and]
    congr 1
    funext i
    by_cases hi : i = a
    · subst hi
      simp [Function.update_noteq (Ne.symm hba), hp, hn]
    · by_cases hib : i = b
      · subst hib
        simp [hi, Function.update_noteq hi]
      · have : (i : Int) ≠ (b : Int) := by omega
        simp [hi, hib, this, Function.update_noteq hi, Function.update_noteq hib]
  · simp only [Elem.take, Elem.lock, Elem.unlock, Elem.get, Elem.setStatus, Elem.setNextIndex,
      slot_natCast K ha, slot_natCast K hpl,
      Buffer.lock, Buffer.unlock, hm, hp, hn, hpne, ok_bind, pure_eq_ok, if_true,
      List.not_mem_nil, if_false, Buffer.setHeadIndex, Buffer.setTailIndex, Buffer.modifyElem,
      List.erase_cons_head]
    refine ⟨_, rfl, ?_, rfl, rfl⟩
    simp only [unlinked, hp, hn, hpne, if_true, ne_eq, not_true_eq_false, false_and, if_false,
      not_false_eq_true, true_and]
    congr 1
    funext i
    by_cases hi : i = a
    · subst hi
      simp [Function.update_noteq (Ne.symm hpa), hp, hn]
    · by_cases hip : i = p
      · subst hip
        simp [hi, Function.update_noteq hi]
      · have : (i : Int) ≠ (p : Int) := by omega
        simp [hi, hip, this, Function.update_noteq hi, Function.update_noteq hip]
  · have hbp : b ≠ p := fun e => hpl2 (e ▸ hbl2)
    simp only [Elem.take, Elem.lock, Elem.unlock, Elem.get, Elem.setStatus, Elem.setNextIndex,
      Elem.setPrevIndex, slot_natCast K ha, slot_natCast K hpl, slot_natCast K hbl,
      Buffer.lock, Buffer.unlock, hm, hp, hn, hpne, hbne, ok_bind, pure_eq_ok, if_true,
      List.not_mem_nil, if_false, Buffer.setHeadIndex, Buffer.setTailIndex, Buffer.modifyElem,
      List.erase_cons_head]
    refine ⟨_, rfl, ?_, rfl, rfl⟩
    simp only [unlinked, hp, hn, hpne, hbne, if_true, ne_eq, not_true_eq_false, false_and,
      if_false, not_false_eq_true, true_and]
    congr 1
    funext i
    by_cases hi : i = a
    · subst hi
      simp [Function.update_noteq (Ne.symm hpa), Function.update_noteq (Ne.symm hba), hp, hn]
    · by_cases hip : i = p
      · subst hip
        simp [hi, Function.update_noteq hi, Function.update_noteq (Ne.symm hbp)]
      · have h1 : (i : Int) ≠ (p : Int) := by omega
        by_cases hib : i = b
        · subst hib
          simp [hi, hip, h1, Function.update_noteq hi, Function.update_noteq hip]
        · have h2 : (i : Int) ≠ (b : Int) := by omega
          simp [hi, hip, hib, h1, h2, Function.update_noteq hi, Function.update_noteq hip,
            Function.update_noteq hib]

theorem inputReadLoop_nomatch (K : Consts) (q : Query) (deleteTuple : Bool) (S : Shm) (c : Nat)
    (tr : List LockEv) (n a : Nat) (ha : a < K.MAX_TUPLES_COUNT)
    (hm : q.matchesTuple (S.blocks a).tupleBody = false) :
    inputReadLoop K q deleteTuple (n + 1) (a : Int) ⟨S, c, [], tr⟩ =
      if (S.blocks a).nextIndex = K.End then
        Except.ok (none, ⟨S, c, [], tr ++ [LockEv.acquire (Lock.elem a),
          LockEv.release (Lock.elem a), LockEv.acquire (Lock.elem a),
          LockEv.release (Lock.elem a), LockEv.acquire Lock.condMutex,
          LockEv.release Lock.condMutex]⟩)
      else
        inputReadLoop K q deleteTuple n (S.blocks a).nextIndex ⟨S, c, [],
          tr ++ [LockEv.acquire (Lock.elem a), LockEv.release (Lock.elem a),
            LockEv.acquire (Lock.elem a), LockEv.release (Lock.elem a)]⟩ := by
  by_cases hn : (S.blocks a).nextIndex = K.End <;> cases deleteTuple <;>
    simp [inputReadLoop, elem_take_none K q S c tr a ha hm, elem_read_eq K q S c tr a ha,
      elem_next_eq K S c _ a ha, hm, hn]

theorem inputReadLoop_match_read (K : Consts) (q : Query) (S : Shm) (c : Nat)
    (tr : List LockEv) (n a : Nat) (ha : a < K.MAX_TUPLES_COUNT)
    (hm : q.matchesTuple (S.blocks a).tupleBody = true) :
    inputReadLoop K q false (n + 1) (a : Int) ⟨S, c, [], tr⟩ =
      Except.ok (some (S.blocks a).tupleBody, ⟨S, c, [],
        tr ++ [LockEv.acquire (Lock.elem a), LockEv.release (Lock.elem a)]⟩) := by
  simp [inputReadLoop, elem_read_eq K q S c tr a ha, hm]

theorem inputReadLoop_match_take (K : Consts) (q : Query) (B B' : Buffer) (n : Nat) (i : Int)
    (t : Tuple) (h : Elem.take K q i B = Except.ok (some t, B')) :
    inputReadLoop K q true (n + 1) i B = Except.ok (some t, B') := by
  simp [inputReadLoop, h]

theorem inputReadLoop_walk (K : Consts) (hK : K.WF) (q : Query) (deleteTuple : Bool)
    (S : Shm) (c : Nat) :
    ∀ (l2 l1 : List Nat) (a : Nat) (fuel : Nat) (tr : List LockEv),
      ListInvOn K S (l1 ++ a :: l2) →
      (deleteTuple = true → PrevChain S K.REnd (l1 ++ a :: l2)) →
      l2.length < fuel →
      ∃ r B', inputReadLoop K q deleteTuple fuel (a : Int) ⟨S, c, [], tr⟩ = Except.ok (r, B') ∧
        WalkResult K q deleteTuple S c (a :: l2) r B' := by
  intro l2
  induction l2 with
  | nil =>
    intro l1 a fuel tr hinv hprev hfuel
    obtain ⟨n, rfl⟩ : ∃ n, fuel = n + 1 := ⟨fuel - 1, by omega⟩
    have hsplit := hinv.1
    rw [chain_iff_chainTo, chainTo_append] at hsplit
    obtain ⟨m, _, _, ha, hnx⟩ := hsplit
    have hnx' : (S.blocks a).nextIndex = K.End := hnx
    by_cases hm : q.matchesTuple (S.blocks a).tupleBody = true
    · cases deleteTuple with
      | true =>
        obtain ⟨B', h1, h2, h3, h4⟩ := elem_take_some K hK q S c tr l1 a [] ⟨hinv, hprev rfl⟩ hm
        refine ⟨some (S.blocks a).tupleBody, B', inputReadLoop_match_take K q _ B' n _ _ h1,
          h3, h4, Or.inr ⟨[], a, [], rfl, ?_, hm, rfl, ?_⟩⟩
        · intro y hy
          simp at hy
        · simp [h2]
      | false =>
        refine ⟨some (S.blocks a).tupleBody, _, inputReadLoop_match_read K q S c tr n a ha hm,
          rfl, rfl, Or.inr ⟨[], a, [], rfl, ?_, hm, rfl, ?_⟩⟩
        · intro y hy
          simp at hy
        · simp
    · have hm' : q.matchesTuple (S.blocks a).tupleBody = false := by simpa using hm
      have hrun := inputReadLoop_nomatch K q deleteTuple S c tr n a ha hm'
      rw [if_pos hnx'] at hrun
      refine ⟨none, _, hrun, rfl, rfl, Or.inl ⟨rfl, rfl, ?_⟩⟩
      intro x hx
      simp only [List.mem_singleton] at hx
      subst hx
      exact hm'
  | cons b l2 ih =>
    intro l1 a fuel tr hinv hprev hfuel
    obtain ⟨n, rfl⟩ : ∃ n, fuel = n + 1 := ⟨fuel - 1, by omega⟩
    have hsplit := hinv.1
    rw [chain_iff_chainTo, chainTo_append] at hsplit
    obtain ⟨m, _, _, ha, hnx⟩ := hsplit
    have hnxb : (S.blocks a).nextIndex = (b : Int) := hnx.1
    have hbne : (S.blocks a).nextIndex ≠ K.End := by
      rw [hnxb]
      exact natCast_ne_end hK hnx.2.1
    by_cases hm : q.matchesTuple (S.blocks a).tupleBody = true
    · cases deleteTuple with
      | true =>
        obtain ⟨B', h1, h2, h3, h4⟩ :=
          elem_take_some K hK q S c tr l1 a (b :: l2) ⟨hinv, hprev rfl⟩ hm
        refine ⟨some (S.blocks a).tupleBody, B', inputReadLoop_match_take K q _ B' n _ _ h1,
          h3, h4, Or.inr ⟨[], a, b :: l2, rfl, ?_, hm, rfl, ?_⟩⟩
        · intro y hy
          simp at hy
        · simp [h2]
      | false =>
        refine ⟨some (S.blocks a).tupleBody, _, inputReadLoop_match_read K q S c tr n a ha hm,
          rfl, rfl, Or.inr ⟨[], a, b :: l2, rfl, ?_, hm, rfl, ?_⟩⟩
        · intro y hy
          simp at hy
        · simp
    · have hm' : q.matchesTuple (S.blocks a).tupleBody = false := by simpa using hm
      have hrun := inputReadLoop_nomatch K q deleteTuple S c tr n a ha hm'
      rw [if_neg hbne, hnxb] at hrun
      have e : l1 ++ a :: b :: l2 = (l1 ++ [a]) ++ b :: l2 := by simp
      obtain ⟨r, B', hrun2, hc', hh', hres⟩ := ih (l1 ++ [a]) b n
        (tr ++ [LockEv.acquire (Lock.elem a), LockEv.release (Lock.elem a),
          LockEv.acquire (Lock.elem a), LockEv.release (Lock.elem a)])
        (e ▸ hinv) (fun hd => e ▸ hprev hd) (by simpa using hfuel)
      refine ⟨r, B', hrun.trans hrun2, hc', hh', ?_⟩
      rcases hres with ⟨h1, h2, h3⟩ | ⟨m1, x, m2, h1, h2, h3, h4, h5⟩
      · refine Or.inl ⟨h1, h2, ?_⟩
        intro x hx
        rcases List.mem_cons.mp hx with rfl | hx
        · exact hm'
        · exact h3 x hx
      · refine Or.inr ⟨a :: m1, x, m2, by rw [h1]; rfl, ?_, h3, h4, h5⟩
        intro y hy
        rcases List.mem_cons.mp hy with rfl | hy
        · exact hm'
        · exact h2 y hy

theorem inputReadImpl_walk (K : Consts) (hK : K.WF) (q : Query) (deleteTuple : Bool)
    (S : Shm) (c : Nat) (tr : List LockEv) (l : List Nat) (fuel : Nat)
    (hq : q.empty = false) (hinv : ListInvOn K S l)
    (hprev : deleteTuple = true → PrevChain S K.REnd l) (hfuel : l.length < fuel) :
    ∃ r B', inputReadImpl K fuel q deleteTuple ⟨S, c, [], tr⟩ = Except.ok (r, B') ∧
      WalkResult K q deleteTuple S c l r B' := by
  have hfirst := getFirstElem_ok K hK S c [] tr l hinv (by simp)
  cases l with
  | nil =>
    have hh : S.headIndex = K.End := hinv.1
    obtain ⟨n, hn⟩ : ∃ n, fuel = n + 1 := ⟨fuel - 1, by simp at hfuel; omega⟩
    have hrun : ∃ B', inputReadImpl K fuel q deleteTuple ⟨S, c, [], tr⟩ = Except.ok (none, B') ∧
        B'.shm = S ∧ B'.currentAllocationIndex = c ∧ B'.held = [] := by
      simp [inputReadImpl, hq, hfirst, hh, hn, waitFirstElem, Buffer.lock, Buffer.unlock,
        Cond.wait]
    obtain ⟨B', h1, h2, h3, h4⟩ := hrun
    exact ⟨none, B', h1, h3, h4, Or.inl ⟨rfl, h2, by simp⟩⟩
  | cons a l =>
    have hh : S.headIndex = (a : Int) := hinv.1.1
    have ha : a < K.MAX_TUPLES_COUNT := hinv.1.2.1
    have hst : (S.blocks a).status = Status.Valid := hinv.2.2.1 a ha (by simp)
    obtain ⟨n, hn⟩ : ∃ n, fuel = n + 1 := ⟨fuel - 1, by simp at hfuel; omega⟩
    obtain ⟨r, B', hrun, hres⟩ := inputReadLoop_walk K hK q deleteTuple S c l [] a fuel
      (tr ++ [LockEv.acquire Lock.headLock, LockEv.release Lock.headLock]) hinv hprev
      (by simp at hfuel; omega)
    refine ⟨r, B', ?_, hres⟩
    rw [← hrun]
    simp [inputReadImpl, hq, hfirst, hh, hn, waitFirstElem, natCast_ne_end hK ha,
      Elem.getStatus, Elem.get, slot_natCast K ha, hst]

theorem output_success_inv (K : Consts) (hK : K.WF) (fuel : Nat) (tup : Tuple) (S : Shm)
    (c : Nat) (tr : List LockEv) (l : List Nat) (B1 : Buffer)
    (hc : c < K.MAX_TUPLES_COUNT) (hinv : ListInvOn K S l)
    (hout : output K fuel tup ⟨S, c, [], tr⟩ = Except.ok (OutputResult.success, B1)) :
    ∃ k f, k < K.MAX_TUPLES_COUNT ∧ f = (c + k) % K.MAX_TUPLES_COUNT ∧
      f < K.MAX_TUPLES_COUNT ∧
      (∀ j, j < k → (S.blocks ((c + j) % K.MAX_TUPLES_COUNT)).status ≠ Status.Free) ∧
      (S.blocks f).status = Status.Free ∧
      B1.shm = linked K S f tup ∧ B1.currentAllocationIndex = f ∧ B1.held = [] := by
  rcases scan_cases K S c hc with ⟨k, hk, hbusy, hfree⟩ | hnone
  · cases fuel with
    | zero =>
      exfalso
      have halloc := findFreeBlockLoop_found K S K.MAX_TUPLES_COUNT c k tr hc hk hbusy hfree
      have hf : (c + k) % K.MAX_TUPLES_COUNT < K.MAX_TUPLES_COUNT := Nat.mod_lt _ (by omega)
      unfold output outputWith findFreeBlock at hout
      rw [halloc] at hout
      simp only [ok_bind, getLastElem, error_bind, pure_eq_ok] at hout
      split at hout <;> simp at hout
    | succ n =>
      obtain ⟨B', h1, h2, h3, h4⟩ := output_linked K hK n tup S c tr l hinv hc k hk hbusy hfree
      rw [h1] at hout
      simp only [Except.ok.injEq, Prod.mk.injEq, true_and] at hout
      subst hout
      exact ⟨k, _, hk, rfl, Nat.mod_lt _ (by omega), hbusy, hfree, h2, h3, h4⟩
  · exfalso
    obtain ⟨B', h⟩ := ((output_oom_cases K hK fuel tup S c tr hc).1).mpr hnone
    rw [h] at hout
    simp at hout

theorem first_match_unique {P : Nat → Prop} : ∀ {l1 m1 : List Nat} {x y : Nat} {l2 m2 : List Nat},
    l1 ++ x :: l2 = m1 ++ y :: m2 → (∀ a, a ∈ l1 → ¬ P a) → P x → (∀ a, a ∈ m1 → ¬ P a) → P y →
    l1 = m1 ∧ x = y ∧ l2 = m2
  | [], [], x, y, l2, m2, h, _, _, _, _ => by
    simp only [List.nil_append, List.cons.injEq] at h
    exact ⟨rfl, h.1, h.2⟩
  | [], b :: m1, x, y, l2, m2, h, _, hx, hm, _ => by
    simp only [List.nil_append, List.cons_append, List.cons.injEq] at h
    exact absurd (h.1 ▸ hx) (hm b (List.mem_cons_self _ _))
  | a :: l1, [], x, y, l2, m2, h, hl, _, _, hy => by
    simp only [List.nil_append, List.cons_append, List.cons.injEq] at h
    exact absurd (h.1 ▸ hy) (hl a (List.mem_cons_self _ _))
  | a :: l1, b :: m1, x, y, l2, m2, h, hl, hx, hm, hy => by
    simp only [List.cons_append, List.cons.injEq] at h
    obtain ⟨e1, e2, e3⟩ := first_match_unique h.2
      (fun z hz => hl z (List.mem_cons_of_mem _ hz)) hx
      (fun z hz => hm z (List.mem_cons_of_mem _ hz)) hy
    exact ⟨by rw [h.1, e1], e2, e3⟩

/-- What `inputReadImpl` does when the first block of the walk that matches is known. -/
theorem inputReadImpl_first (K : Consts) (hK : K.WF) (q : Query) (deleteTuple : Bool)
    (S : Shm) (c : Nat) (tr : List LockEv) (l1 : List Nat) (x : Nat) (l2 : List Nat) (fuel : Nat)
    (hq : q.empty = false) (hinv : ListInvOn K S (l1 ++ x :: l2))
    (hprev : deleteTuple = true → PrevChain S K.REnd (l1 ++ x :: l2))
    (hno : ∀ y, y ∈ l1 → q.matchesTuple (S.blocks y).tupleBody = false)
    (hm : q.matchesTuple (S.blocks x).tupleBody = true)
    (hfuel : (l1 ++ x :: l2).length < fuel) :
    ∃ B', inputReadImpl K fuel q deleteTuple ⟨S, c, [], tr⟩ =
        Except.ok (some (S.blocks x).tupleBody, B') ∧
      B'.shm = (if deleteTuple then unlinked K S x else S) ∧
      B'.currentAllocationIndex = c ∧ B'.held = [] := by
  obtain ⟨r, B', hrun, hc', hh', hres⟩ :=
    inputReadImpl_walk K hK q deleteTuple S c tr _ fuel hq hinv hprev hfuel
  rcases hres with ⟨_, _, h3⟩ | ⟨m1, y, m2, h1, h2, h3, h4, h5⟩
  · have := h3 x (by simp)
    rw [hm] at this
    exact absurd this (by decide)
  · obtain ⟨_, e2, _⟩ := @first_match_unique
      (fun a => q.matchesTuple (S.blocks a).tupleBody = true) _ _ _ _ _ _ h1
      (fun a ha => by simp [hno a ha]) hm (fun a ha => by simp [h2 a ha]) h3
    subst e2
    exact ⟨B', by rw [hrun, h4], h5, hc', hh'⟩

/-- C3. Round trip. On a state satisfying the list invariant whose tuples do not match
the query `q`, with a cursor in `0 .. N-1` and no lock held: once `output` has returned
`success` for a tuple that `q` matches, `read` with `q` (and enough fuel to walk the
list) returns that tuple and leaves the segment (head, tail and every block) unchanged,
and a second `read` returns the tuple again, the segment still unchanged. -/
theorem read_after_output (K : Consts) (hK : K.WF) (fuel fuel2 : Nat) (tup : Tuple) (q : Query)
    (S : Shm) (c : Nat) (tr : List LockEv) (l : List Nat) (B1 : Buffer)
    (hc : c < K.MAX_TUPLES_COUNT) (hinv : ListInvOn K S l) (hq : q.empty = false)
    (hm : q.matchesTuple tup = true)
    (hno : ∀ x, x ∈ l → q.matchesTuple (S.blocks x).tupleBody = false)
    (hout : output K fuel tup ⟨S, c, [], tr⟩ = Except.ok (OutputResult.success, B1))
    (hfuel2 : l.length + 1 < fuel2) :
    ∃ B2 B3, read K fuel2 q B1 = Except.ok (some tup, B2) ∧ B2.shm = B1.shm ∧
      read K fuel2 q B2 = Except.ok (some tup, B3) ∧ B3.shm = B1.shm := by
  obtain ⟨k, f, _, _, hf, _, hfree, hshm, hcur, hheld⟩ :=
    output_success_inv K hK fuel tup S c tr l B1 hc hinv hout
  have hnew := listInvOn_linked K hK S f tup l hinv hf hfree
  have hfl : f ∉ l := by
    intro hmem
    have := hinv.2.2.1 f hf hmem
    rw [hfree] at this
    exact absurd this (by decide)
  have hno' : ∀ y, y ∈ l → q.matchesTuple ((linked K S f tup).blocks y).tupleBody = false := by
    intro y hy
    rw [linked_body K S f tup (fun e => hfl (e ▸ hy))]
    exact hno y hy
  have hm' : q.matchesTuple ((linked K S f tup).blocks f).tupleBody = true := by
    rw [linked_block_self]
    exact hm
  have hbody : ((linked K S f tup).blocks f).tupleBody = tup := by rw [linked_block_self]
  have hlen : (l ++ f :: []).length < fuel2 := by simp; omega
  obtain ⟨S1, c1, h1, tr1⟩ := B1
  simp only at hshm hcur hheld
  subst hshm hheld
  obtain ⟨B2, hr2, hs2, hc2, hh2⟩ := inputReadImpl_first K hK q false (linked K S f tup) c1 tr1
    l f [] fuel2 hq hnew (fun h => by simp at h) hno' hm' hlen
  obtain ⟨S2, c2, h2, tr2⟩ := B2
  simp only [Bool.false_eq_true, if_false] at hs2 hc2 hh2
  subst hs2 hh2
  obtain ⟨B3, hr3, hs3, _, _⟩ := inputReadImpl_first K hK q false (linked K S f tup) c2 tr2
    l f [] fuel2 hq hnew (fun h => by simp at h) hno' hm' hlen
  simp only [Bool.false_eq_true, if_false] at hs3
  rw [hbody] at hr2 hr3
  exact ⟨_, B3, hr2, rfl, hr3, hs3⟩

/-- C4. FIFO order. If `output` of `T1` and then `output` of `T2` succeed on an empty
buffer and the query `q` matches both, the first `input` with `q` returns `T1` and the
second returns `T2`. More generally, on a state satisfying the list invariant (with the
backward links when the retrieval is destructive) whose walk is `l1 ++ x :: l2`, where
no block of `l1` matches `q` and `x` does, `inputReadImpl` returns the payload of `x`,
the first block in list order that matches; the segment is then unchanged
(non-destructive) or has `x` unlinked (destructive). -/
theorem input_fifo (K : Consts) (hK : K.WF) (q : Query) (hq : q.empty = false)
    (S : Shm) (c : Nat) (tr : List LockEv) (fuel fuel2 : Nat) (T1 T2 : Tuple) (B1 B2 : Buffer)
    (hc : c < K.MAX_TUPLES_COUNT) (hempty : ListInvOn K S [])
    (hm1 : q.matchesTuple T1 = true) (hm2 : q.matchesTuple T2 = true)
    (hout1 : output K fuel T1 ⟨S, c, [], tr⟩ = Except.ok (OutputResult.success, B1))
    (hout2 : output K fuel T2 B1 = Except.ok (OutputResult.success, B2))
    (hfuel2 : 2 < fuel2)
    (deleteTuple : Bool) (S' : Shm) (c' : Nat) (tr' : List LockEv) (fuel' : Nat)
    (l1 : List Nat) (x : Nat) (l2 : List Nat)
    (hinv : ListInvOn K S' (l1 ++ x :: l2))
    (hprev : deleteTuple = true → PrevChain S' K.REnd (l1 ++ x :: l2))
    (hno : ∀ y, y ∈ l1 → q.matchesTuple (S'.blocks y).tupleBody = false)
    (hmx : q.matchesTuple (S'.blocks x).tupleBody = true)
    (hfuel' : (l1 ++ x :: l2).length < fuel') :
    (∃ B3 B4, input K fuel2 q B2 = Except.ok (some T1, B3) ∧
      input K fuel2 q B3 = Except.ok (some T2, B4)) ∧
    (∃ B', inputReadImpl K fuel' q deleteTuple ⟨S', c', [], tr'⟩ =
        Except.ok (some (S'.blocks x).tupleBody, B') ∧
      B'.shm = (if deleteTuple then unlinked K S' x else S')) := by
  constructor
  · obtain ⟨_, f1, _, _, hf1, _, hfree1, hshm1, hcur1, hheld1⟩ :=
      output_success_inv K hK fuel T1 S c tr [] B1 hc hempty hout1
    have d1 := dlistInvOn_linked K hK S f1 T1 [] ⟨hempty, trivial⟩ hf1 hfree1
    obtain ⟨S1, c1, h1, tr1⟩ := B1
    simp only at hshm1 hcur1 hheld1
    subst hshm1 hheld1
    rw [hcur1] at hout2
    obtain ⟨_, f2, _, _, hf2, _, hfree2, hshm2, hcur2, hheld2⟩ :=
      output_success_inv K hK fuel T2 _ f1 tr1 _ B2 hf1 d1.1 hout2
    have d2 := dlistInvOn_linked K hK _ f2 T2 _ d1 hf2 hfree2
    have hne : f2 ≠ f1 := by
      intro e
      rw [e, linked_block_self] at hfree2
      simp at hfree2
    obtain ⟨S2, c2, h2, tr2⟩ := B2
    simp only at hshm2 hcur2 hheld2
    subst hshm2 hheld2
    have hb1 : ((linked K (linked K S f1 T1) f2 T2).blocks f1).tupleBody = T1 := by
      rw [linked_body _ _ _ _ (Ne.symm hne), linked_block_self]
    have hb2 : ((linked K (linked K S f1 T1) f2 T2).blocks f2).tupleBody = T2 := by
      rw [linked_block_self]
    obtain ⟨B3, hr3, hs3, hc3, hh3⟩ := inputReadImpl_first K hK q true _ c2 tr2 [] f1 [f2] fuel2
      hq d2.1 (fun _ => d2.2) (fun y hy => by simp at hy) (by rw [hb1]; exact hm1)
      (by simp; omega)
    rw [hb1] at hr3
    have d3 := dlistInvOn_unlinked K hK _ [] f1 [f2] d2
    obtain ⟨S3, c3, h3, tr3⟩ := B3
    simp only [if_true] at hs3 hc3 hh3
    subst hs3 hh3
    have hb3 : ((unlinked K (linked K (linked K S f1 T1) f2 T2) f1).blocks f2).tupleBody = T2 := by
      rw [unlinked_body _ _ _ hne, hb2]
    obtain ⟨B4, hr4, _, _, _⟩ := inputReadImpl_first K hK q true _ c3 tr3 [] f2 [] fuel2
      hq d3.1 (fun _ => d3.2) (fun y hy => by simp at hy) (by rw [hb3]; exact hm2)
      (by simp; omega)
    rw [hb3] at hr4
    exact ⟨_, B4, hr3, hr4⟩
  · obtain ⟨B', h1, h2, _, _⟩ := inputReadImpl_first K hK q deleteTuple S' c' tr' l1 x l2 fuel'
      hq hinv hprev hno hmx hfuel'
    exact ⟨B', h1, h2⟩

theorem outputs_run (K : Consts) (hK : K.WF) (fuel : Nat) (hfuel : 0 < fuel) :
    ∀ (ts : List Tuple) (S : Shm) (c : Nat) (tr : List LockEv) (l : List Nat),
      DListInvOn K S l → c < K.MAX_TUPLES_COUNT → l.length + ts.length ≤ K.MAX_TUPLES_COUNT →
      ∃ B' l', outputs K fuel ts ⟨S, c, [], tr⟩ =
          Except.ok (List.replicate ts.length OutputResult.success, B') ∧
        DListInvOn K B'.shm (l ++ l') ∧ l'.length = ts.length ∧
        (l ++ l').map (fun a => (B'.shm.blocks a).tupleBody) =
          l.map (fun a => (S.blocks a).tupleBody) ++ ts ∧
        B'.currentAllocationIndex < K.MAX_TUPLES_COUNT ∧ B'.held = []
  | [], S, c, tr, l, hinv, hc, _ => by
    refine ⟨⟨S, c, [], tr⟩, [], rfl, ?_, rfl, ?_, hc, rfl⟩
    · rw [List.append_nil]
      exact hinv
    · simp
  | t :: ts, S, c, tr, l, hinv, hc, hlen => by
    have hnd := chain_nodup hK hinv.1.1
    have hlt := chain_lt hinv.1.1
    obtain ⟨i, hi, hil⟩ := nodup_has_free hnd hlt (by simp at hlen; omega)
    have hex : ∃ i, i < K.MAX_TUPLES_COUNT ∧ (S.blocks i).status = Status.Free :=
      ⟨i, hi, hinv.1.2.2.2 i hi hil⟩
    obtain ⟨_, f, B1, _, _, hf, _, hfree, hout, hshm, hcur, hheld⟩ :=
      output_step K hK fuel t S c tr l hfuel hc hinv.1 hex
    have d1 := dlistInvOn_linked K hK S f t l hinv hf hfree
    have hfl : f ∉ l := by
      intro hmem
      have := hinv.1.2.2.1 f hf hmem
      rw [hfree] at this
      exact absurd this (by decide)
    obtain ⟨S1, c1, h1, tr1⟩ := B1
    simp only at hshm hcur hheld
    subst hshm hheld
    obtain ⟨B', l', hrun, hinv', hlen', hbody, hc', hh'⟩ :=
      outputs_run K hK fuel hfuel ts (linked K S f t) c1 tr1 (l ++ [f]) d1
        (by rw [hcur]; exact hf) (by simp at hlen ⊢; omega)
    refine ⟨B', f :: l', ?_, ?_, by simp [hlen'], ?_, hc', hh'⟩
    · simp [outputs, hout, hrun, List.replicate_succ]
    · rw [List.append_assoc] at hinv'
      exact hinv'
    · rw [List.append_assoc] at hbody
      rw [List.singleton_append] at hbody
      rw [hbody, List.map_append, List.append_assoc]
      congr 1
      · apply List.map_congr_left
        intro a ha
        exact linked_body K S f t (fun e => hfl (e ▸ ha))
      · simp [linked_block_self]

/-- C5. Capacity bound. From the freshly initialised buffer (head and tail `End`, every
block `Free`, cursor `0`, no lock held), `N` consecutive calls to `output` all return
`success`, and the next call returns `out_of_memory`. A destructive retrieval whose query
matches one of the stored tuples then returns a tuple, and the call to `output` after it
returns `success`. -/
theorem capacity_bound (K : Consts) (hK : K.WF) (fuel fuel2 : Nat) (hfuel : 0 < fuel)
    (ts : List Tuple) (hlen : ts.length = K.MAX_TUPLES_COUNT) (t t' : Tuple) (q : Query)
    (hq : q.empty = false) (hmatch : ∃ u, u ∈ ts ∧ q.matchesTuple u = true)
    (hfuel2 : K.MAX_TUPLES_COUNT < fuel2) :
    ∃ B1 B2 x B3 B4,
      outputs K fuel ts (Buffer.attach (init K)) =
        Except.ok (List.replicate K.MAX_TUPLES_COUNT OutputResult.success, B1) ∧
      output K fuel t B1 = Except.ok (OutputResult.out_of_memory, B2) ∧
      input K fuel2 q B2 = Except.ok (some x, B3) ∧ x ∈ ts ∧
      output K fuel t' B3 = Except.ok (OutputResult.success, B4) := by
  have hN : 0 < K.MAX_TUPLES_COUNT := by
    obtain ⟨u, hu, _⟩ := hmatch
    rw [← hlen]
    exact List.length_pos_of_mem hu
  obtain ⟨B1, l, hrun, hinv, hl, hbody, hc1, hh1⟩ :=
    outputs_run K hK fuel hfuel ts (init K) 0 [] [] ⟨listInv_init K, trivial⟩ hN
      (by simp [hlen])
  simp only [List.nil_append, List.map_nil] at hinv hbody
  rw [hlen] at hrun hl
  have hnd := chain_nodup hK hinv.1.1
  have hlt := chain_lt hinv.1.1
  have hall := nodup_all_mem hnd hlt hl
  obtain ⟨S1, c1, h1, tr1⟩ := B1
  simp only at hinv hbody hc1 hh1
  subst hh1
  have hnone : ∀ i, i < K.MAX_TUPLES_COUNT → (S1.blocks i).status ≠ Status.Free := by
    intro i hi
    rw [hinv.1.2.2.1 i hi (hall i hi)]
    decide
  obtain ⟨B2, hout2⟩ := ((output_oom_cases K hK fuel t S1 c1 tr1 hc1).1).mpr hnone
  obtain ⟨hs2, hc2, hh2⟩ := (output_oom_cases K hK fuel t S1 c1 tr1 hc1).2 B2 hout2
  obtain ⟨S2, c2, h2, tr2⟩ := B2
  simp only at hs2 hc2 hh2
  subst hs2 hh2 hc2
  obtain ⟨r, B3, hin, hc3, hh3, hres⟩ := inputReadImpl_walk K hK q true S2 c2 tr2 l fuel2 hq
    hinv.1 (fun _ => hinv.2) (by rw [hl]; exact hfuel2)
  obtain ⟨u, hu, hmu⟩ := hmatch
  rw [← hbody, List.mem_map] at hu
  obtain ⟨a, ha, hau⟩ := hu
  rcases hres with ⟨_, _, h3⟩ | ⟨m1, y, m2, e, _, _, hr, hs3⟩
  · have := h3 a ha
    rw [hau, hmu] at this
    exact absurd this (by decide)
  · subst e
    have d3 := dlistInvOn_unlinked K hK S2 m1 y m2 hinv
    simp only [if_true] at hs3
    obtain ⟨S3, c3, h3', tr3⟩ := B3
    simp only at hs3 hc3 hh3
    subst hs3 hh3 hc3
    have hnd3 := chain_nodup hK d3.1.1
    have hlt3 := chain_lt d3.1.1
    obtain ⟨i, hi, hil⟩ := nodup_has_free hnd3 hlt3 (by simp at hl ⊢; omega)
    obtain ⟨_, f, B4, _, _, _, _, _, hout4, _⟩ :=
      output_step K hK fuel t' _ c3 tr3 _ hfuel hc1 d3.1 ⟨i, hi, d3.1.2.2.2 i hi hil⟩
    refine ⟨_, _, (S2.blocks y).tupleBody, _, B4, hrun, hout2, ?_, ?_, hout4⟩
    · rw [← hr]
      exact hin
    · rw [← hbody]
      exact List.mem_map.mpr ⟨y, by simp, rfl⟩

theorem cycles_run (K : Consts) (hK : K.WF) (fuel : Nat) (hfuel : 1 < fuel) (q : Query)
    (hq : q.empty = false) :
    ∀ (ts : List Tuple) (S : Shm) (c : Nat) (tr : List LockEv),
      ListInvOn K S [] → c < K.MAX_TUPLES_COUNT → (∀ t, t ∈ ts → q.matchesTuple t = true) →
      ∃ B', cycles K fuel q ts ⟨S, c, [], tr⟩ =
          Except.ok (ts.map (fun t => (OutputResult.success, (c : Int), some t)), B') ∧
        ListInvOn K B'.shm [] ∧ B'.currentAllocationIndex = c ∧ B'.held = []
  | [], S, c, tr, hinv, _, _ => ⟨⟨S, c, [], tr⟩, rfl, hinv, rfl, rfl⟩
  | t :: ts, S, c, tr, hinv, hc, hm => by
    have hcfree : (S.blocks c).status = Status.Free := hinv.2.2.2 c hc (by simp)
    obtain ⟨k, f, B1, _, hfk, hf, hbusy, hfree, hout, hshm, hcur, hheld⟩ :=
      output_step K hK fuel t S c tr [] (by omega) hc hinv ⟨c, hc, hcfree⟩
    have hk : k = 0 := by
      by_contra hne
      have := hbusy 0 (by omega)
      rw [Nat.add_zero, Nat.mod_eq_of_lt hc] at this
      exact this hcfree
    have hfc : f = c := by rw [hfk, hk, Nat.add_zero, Nat.mod_eq_of_lt hc]
    rw [hfc] at hshm hcur
    have d1 := dlistInvOn_linked K hK S c t [] ⟨hinv, trivial⟩ hc hcfree
    obtain ⟨S1, c1, h1, tr1⟩ := B1
    simp only at hshm hcur hheld
    subst hshm hheld
    rw [hcur] at hout
    have hb : ((linked K S c t).blocks c).tupleBody = t := by rw [linked_block_self]
    obtain ⟨B2, hin, hs2, hc2, hh2⟩ := inputReadImpl_first K hK q true _ c tr1 [] c [] fuel hq
      d1.1 (fun _ => d1.2) (fun y hy => by simp at hy)
      (by rw [hb]; exact hm t (List.mem_cons_self _ _)) (by simp; omega)
    rw [hb] at hin
    have d2 := dlistInvOn_unlinked K hK _ [] c [] d1
    obtain ⟨S2, c2, h2, tr2⟩ := B2
    simp only [if_true] at hs2 hc2 hh2
    subst hs2 hh2
    rw [hc2] at hin
    obtain ⟨B', hrun, hinv', hc', hh'⟩ := cycles_run K hK fuel hfuel q hq ts _ c tr2 d2.1 hc
      (fun u hu => hm u (List.mem_cons_of_mem _ hu))
    refine ⟨B', ?_, hinv', hc', hh'⟩
    have hin' : input K fuel q ⟨linked K S c t, c, [], tr1⟩ = Except.ok (some t, _) := hin
    have htl : (linked K S c t).tailIndex = (c : Int) := rfl
    simp [cycles, hout, hin', hrun, htl]

/-- C7 (as amended). The cursor advances, by one modulo `N`, only past blocks that are
not `Free`, and stays on the block it returns. So from an empty buffer with cursor `c`,
every insert-then-remove cycle (an `output` followed by an `input` whose query matches
the tuple) succeeds, places its tuple in block `c` and leaves the buffer empty with the
cursor at `c`: the cycles reuse one block. -/
theorem cycles_reuse_block (K : Consts) (hK : K.WF) (fuel : Nat) (hfuel : 1 < fuel) (q : Query)
    (hq : q.empty = false) (ts : List Tuple) (S : Shm) (c : Nat) (tr : List LockEv)
    (hempty : ListInvOn K S []) (hc : c < K.MAX_TUPLES_COUNT)
    (hm : ∀ t, t ∈ ts → q.matchesTuple t = true) :
    ∃ B', cycles K fuel q ts ⟨S, c, [], tr⟩ =
        Except.ok (ts.map (fun t => (OutputResult.success, (c : Int), some t)), B') ∧
      ListInvOn K B'.shm [] ∧ B'.currentAllocationIndex = c ∧ B'.held = [] :=
  cycles_run K hK fuel hfuel q hq ts S c tr hempty hc hm

/-! ### Lock histories -/

theorem heldAfter_append : ∀ (tr1 tr2 : List LockEv) (h : List Lock),
    heldAfter h (tr1 ++ tr2) = heldAfter (heldAfter h tr1) tr2
  | [], _, _ => rfl
  | LockEv.acquire l :: tr1, tr2, h => heldAfter_append tr1 tr2 (l :: h)
  | LockEv.release l :: tr1, tr2, h => heldAfter_append tr1 tr2 (h.erase l)

theorem acquiresSat_append (p : Lock → List Lock → Bool) :
    ∀ (tr1 tr2 : List LockEv) (h : List Lock),
    acquiresSat p h (tr1 ++ tr2) = (acquiresSat p h tr1 && acquiresSat p (heldAfter h tr1) tr2)
  | [], _, _ => by simp [acquiresSat, heldAfter]
  | LockEv.acquire l :: tr1, tr2, h => by
    show (p l h && acquiresSat p (l :: h) (tr1 ++ tr2)) = _
    rw [acquiresSat_append p tr1 tr2 (l :: h)]
    simp only [acquiresSat, heldAfter, Bool.and_assoc]
  | LockEv.release l :: tr1, tr2, h => by
    show acquiresSat p (h.erase l) (tr1 ++ tr2) = _
    rw [acquiresSat_append p tr1 tr2 (h.erase l)]
    simp only [acquiresSat, heldAfter]

theorem lock_ok {B B' : Buffer} {l : Lock} (h : B.lock l = Except.ok B') :
    l ∉ B.held ∧
    B' = { B with held := l :: B.held, trace := B.trace ++ [LockEv.acquire l] } := by
  unfold Buffer.lock at h
  split at h
  · simp at h
  · rename_i hn
    simp only [Except.ok.injEq] at h
    exact ⟨hn, h.symm⟩

theorem tracked_lock {p : Lock → List Lock → Bool} {B B' : Buffer} {l : Lock}
    (ht : Tracked p B) (h : B.lock l = Except.ok B') (hp : p l B.held = true) :
    Tracked p B' ∧ B'.held = l :: B.held ∧ B'.shm = B.shm := by
  obtain ⟨_, rfl⟩ := lock_ok h
  refine ⟨⟨?_, ?_⟩, rfl, rfl⟩
  · simp only [heldAfter_append, heldAfter, ← ht.1]
  · simp only [acquiresSat_append, ht.2, Bool.true_and, acquiresSat, ← ht.1, hp, Bool.and_true]

theorem tracked_unlock {p : Lock → List Lock → Bool} {B : Buffer} (l : Lock)
    (ht : Tracked p B) : Tracked p (B.unlock l) := by
  refine ⟨?_, ?_⟩
  · simp only [Buffer.unlock, heldAfter_append, heldAfter, ← ht.1]
  · simp only [Buffer.unlock, acquiresSat_append, ht.2, Bool.true_and, acquiresSat]

theorem tracked_congr {p : Lock → List Lock → Bool} {B B' : Buffer}
    (ht : Tracked p B) (h1 : B'.held = B.held) (h2 : B'.trace = B.trace) : Tracked p B' := by
  unfold Tracked
  rw [h1, h2]
  exact ht

theorem elemLock_ok {K : Consts} {i : Int} {B B' : Buffer} (h : Elem.lock K i B = Except.ok B') :
    ∃ m : Nat, K.slot i = Except.ok m ∧ B.lock (Lock.elem m) = Except.ok B' := by
  unfold Elem.lock at h
  rw [bind_eq_ok] at h
  exact h

theorem elemUnlock_ok {K : Consts} {i : Int} {B B' : Buffer}
    (h : Elem.unlock K i B = Except.ok B') :
    ∃ m : Nat, K.slot i = Except.ok m ∧ B' = B.unlock (Lock.elem m) := by
  unfold Elem.unlock at h
  rw [bind_eq_ok] at h
  obtain ⟨m, h1, h2⟩ := h
  simp only [pure_eq_ok, Except.ok.injEq] at h2
  exact ⟨m, h1, h2.symm⟩

theorem setNextIndex_ok {K : Consts} {i v : Int} {B B' : Buffer}
    (h : Elem.setNextIndex K i v B = Except.ok B') : B'.held = B.held ∧ B'.trace = B.trace := by
  unfold Elem.setNextIndex at h
  rw [bind_eq_ok] at h
  obtain ⟨m, _, h2⟩ := h
  simp only [pure_eq_ok, Except.ok.injEq] at h2
  subst h2
  exact ⟨rfl, rfl⟩

theorem setPrevIndex_ok {K : Consts} {i v : Int} {B B' : Buffer}
    (h : Elem.setPrevIndex K i v B = Except.ok B') : B'.held = B.held ∧ B'.trace = B.trace := by
  unfold Elem.setPrevIndex at h
  rw [bind_eq_ok] at h
  obtain ⟨m, _, h2⟩ := h
  simp only [pure_eq_ok, Except.ok.injEq] at h2
  subst h2
  exact ⟨rfl, rfl⟩

theorem setStatus_ok {K : Consts} {i : Int} {s : Status} {B B' : Buffer}
    (h : Elem.setStatus K i s B = Except.ok B') : B'.held = B.held ∧ B'.trace = B.trace := by
  unfold Elem.setStatus at h
  rw [bind_eq_ok] at h
  obtain ⟨m, _, h2⟩ := h
  simp only [pure_eq_ok, Except.ok.injEq] at h2
  subst h2
  exact ⟨rfl, rfl⟩

theorem writeTuple_ok {K : Consts} {i : Int} {t : Tuple} {B B' : Buffer}
    (h : Elem.writeTuple K i t B = Except.ok B') : B'.held = B.held ∧ B'.trace = B.trace := by
  unfold Elem.writeTuple at h
  rw [bind_eq_ok] at h
  obtain ⟨m, _, h2⟩ := h
  simp only [pure_eq_ok, Except.ok.injEq] at h2
  subst h2
  exact ⟨rfl, rfl⟩

theorem slot_unique {K : Consts} {i : Int} {m m' : Nat} (h : K.slot i = Except.ok m)
    (h' : K.slot i = Except.ok m') : m = m' := by
  rw [h] at h'
  simpa using h'

/-- Locking a block and unlocking it again leaves the held set as it was. -/
theorem lock_unlock_held {B B1 : Buffer} {l : Lock} (h : B.lock l = Except.ok B1) :
    (B1.unlock l).held = B.held := by
  obtain ⟨_, rfl⟩ := lock_ok h
  simp [Buffer.unlock]

theorem findFreeBlockLoop_tracked (K : Consts) (p : Lock → List Lock → Bool)
    (hp : ∀ m h, p (Lock.elem m) h = true) :
    ∀ (n : Nat) (B : Buffer) (i : Int) (B' : Buffer), Tracked p B →
      findFreeBlockLoop K n B = Except.ok (i, B') →
      Tracked p B' ∧ ((i = K.Invalid ∧ B'.held = B.held) ∨
        (∃ m : Nat, K.slot i = Except.ok m ∧ B'.held = Lock.elem m :: B.held))
  | 0, B, i, B', ht, h => by
    simp only [findFreeBlockLoop, Except.ok.injEq, Prod.mk.injEq] at h
    obtain ⟨rfl, rfl⟩ := h
    exact ⟨ht, Or.inl ⟨rfl, rfl⟩⟩
  | n + 1, B, i, B', ht, h => by
    unfold findFreeBlockLoop at h
    rw [bind_eq_ok] at h
    obtain ⟨B1, h1, h⟩ := h
    obtain ⟨m, hm, hl⟩ := elemLock_ok h1
    obtain ⟨ht1, hh1, _⟩ := tracked_lock ht hl (hp m _)
    rw [bind_eq_ok] at h
    obtain ⟨s, _, h⟩ := h
    split at h
    · rw [bind_eq_ok] at h
      obtain ⟨B2, h2, h⟩ := h
      simp only [pure_eq_ok, Except.ok.injEq, Prod.mk.injEq] at h
      obtain ⟨rfl, rfl⟩ := h
      obtain ⟨e1, e2⟩ := setNextIndex_ok h2
      exact ⟨tracked_congr ht1 e1 e2, Or.inr ⟨m, hm, by rw [e1, hh1]⟩⟩
    · rw [bind_eq_ok] at h
      obtain ⟨B2, h2, h⟩ := h
      obtain ⟨m', hm', rfl⟩ := elemUnlock_ok h2
      have e := slot_unique hm hm'
      subst e
      have ht2 : Tracked p (B1.unlock (Lock.elem m)) := tracked_unlock _ ht1
      have hh2 : (B1.unlock (Lock.elem m)).held = B.held := lock_unlock_held hl
      obtain ⟨ht', hres⟩ := findFreeBlockLoop_tracked K p hp n _ i B'
        (by exact tracked_congr ht2 rfl rfl) h
      refine ⟨ht', ?_⟩
      rcases hres with ⟨h3, h4⟩ | ⟨m2, h3, h4⟩
      · exact Or.inl ⟨h3, by rw [h4]; exact hh2⟩
      · exact Or.inr ⟨m2, h3, by rw [h4]; exact congrArg _ hh2⟩

theorem getLastElem_tracked (K : Consts) (p : Lock → List Lock → Bool)
    (hp : ∀ m h, p (Lock.elem m) h = true) :
    ∀ (fuel : Nat) (B : Buffer) (i : Int) (B' : Buffer), Tracked p B →
      p Lock.tailLock B.held = true →
      getLastElem K fuel B = Except.ok (i, B') →
      Tracked p B' ∧ B'.held = B.held
  | 0, B, i, B', _, _, h => by simp [getLastElem] at h
  | fuel + 1, B, i, B', ht, hpt, h => by
    unfold getLastElem at h
    rw [bind_eq_ok] at h
    obtain ⟨B1, h1, h⟩ := h
    obtain ⟨ht1, _, _⟩ := tracked_lock ht h1 hpt
    have ht2 : Tracked p (B1.unlock Lock.tailLock) := tracked_unlock _ ht1
    have hh2 : (B1.unlock Lock.tailLock).held = B.held := lock_unlock_held h1
    dsimp only at h
    split at h
    · rw [bind_eq_ok] at h
      obtain ⟨B3, h3, h⟩ := h
      obtain ⟨ht3, _, _⟩ := tracked_lock ht2 h3 (by rw [hh2]; exact hpt)
      have ht4 : Tracked p (B3.unlock Lock.tailLock) := tracked_unlock _ ht3
      have hh4 : (B3.unlock Lock.tailLock).held = B.held := (lock_unlock_held h3).trans hh2
      simp only [pure_eq_ok, Except.ok.injEq, Prod.mk.injEq] at h
      obtain ⟨_, rfl⟩ := h
      exact ⟨ht4, hh4⟩
    · rw [bind_eq_ok] at h
      obtain ⟨B3, h3, h⟩ := h
      obtain ⟨m, hm, hl⟩ := elemLock_ok h3
      obtain ⟨ht3, _, _⟩ := tracked_lock ht2 hl (hp m _)
      have hun : ∀ B4, Elem.unlock K B1.shm.tailIndex B3 = Except.ok B4 →
          Tracked p B4 ∧ B4.held = B.held := by
        intro B4 h4
        obtain ⟨m', hm', rfl⟩ := elemUnlock_ok h4
        have hm'' : K.slot B1.shm.tailIndex = Except.ok m := hm
        have e := slot_unique hm'' hm'
        subst e
        exact ⟨tracked_unlock _ ht3, (lock_unlock_held hl).trans hh2⟩
      rw [bind_eq_ok] at h
      obtain ⟨s, _, h⟩ := h
      split at h
      · rw [bind_eq_ok] at h
        obtain ⟨B4, h4, h⟩ := h
        obtain ⟨ht4, hh4⟩ := hun B4 h4
        obtain ⟨ht', hh'⟩ := getLastElem_tracked K p hp fuel _ i B' ht4 (by rw [hh4]; exact hpt) h
        exact ⟨ht', hh'.trans hh4⟩
      · rw [bind_eq_ok] at h
        obtain ⟨nx, _, h⟩ := h
        split at h
        · rw [bind_eq_ok] at h
          obtain ⟨B4, h4, h⟩ := h
          obtain ⟨ht4, hh4⟩ := hun B4 h4
          obtain ⟨ht', hh'⟩ :=
            getLastElem_tracked K p hp fuel _ i B' ht4 (by rw [hh4]; exact hpt) h
          exact ⟨ht', hh'.trans hh4⟩
        · rw [bind_eq_ok] at h
          obtain ⟨B4, h4, h⟩ := h
          obtain ⟨ht4, hh4⟩ := hun B4 h4
          simp only [pure_eq_ok, Except.ok.injEq, Prod.mk.injEq] at h
          obtain ⟨_, rfl⟩ := h
          exact ⟨ht4, hh4⟩

theorem outputLoop_tracked (K : Consts) (p : Lock → List Lock → Bool) (Q : List Lock → Prop)
    (hp : ∀ m h, p (Lock.elem m) h = true)
    (hQt : ∀ h, Q h → p Lock.tailLock h = true)
    (hQh : ∀ h, Q h → p Lock.headLock h = true)
    (hQ1 : ∀ h, Q h → Q (Lock.headLock :: h))
    (hQ2 : ∀ m h, Q h → Q (Lock.elem m :: h)) :
    ∀ (fuel : Nat) (last : Int) (B : Buffer) (r : Bool × Int × Buffer), Tracked p B → Q B.held →
      outputLoop K fuel last B = Except.ok r →
      Tracked p r.2.2 ∧ Q r.2.2.held
  | 0, _, _, _, _, _, h => by simp [outputLoop] at h
  | fuel + 1, last, B, r, ht, hq, h => by
    unfold outputLoop at h
    split at h
    · rw [bind_eq_ok] at h
      obtain ⟨B1, h1, h⟩ := h
      obtain ⟨ht1, hh1, _⟩ := tracked_lock ht h1 (hQh _ hq)
      have hq1 : Q B1.held := by rw [hh1]; exact hQ1 _ hq
      split at h
      · simp only [pure_eq_ok, Except.ok.injEq] at h
        subst h
        exact ⟨ht1, hq1⟩
      · rw [bind_eq_ok] at h
        obtain ⟨⟨last2, B2⟩, h2, h⟩ := h
        obtain ⟨ht2, hh2⟩ := getLastElem_tracked K p hp fuel B1 last2 B2 ht1 (hQt _ hq1) h2
        exact outputLoop_tracked K p Q hp hQt hQh hQ1 hQ2 fuel last2 B2 r ht2
          (by rw [hh2]; exact hq1) h
    · rw [bind_eq_ok] at h
      obtain ⟨B1, h1, h⟩ := h
      obtain ⟨m, hm, hl⟩ := elemLock_ok h1
      obtain ⟨ht1, hh1, _⟩ := tracked_lock ht hl (hp m _)
      have hq1 : Q B1.held := by rw [hh1]; exact hQ2 _ _ hq
      rw [bind_eq_ok] at h
      obtain ⟨nx, _, h⟩ := h
      split at h
      · simp only [pure_eq_ok, Except.ok.injEq] at h
        subst h
        exact ⟨ht1, hq1⟩
      · rw [bind_eq_ok] at h
        obtain ⟨B2, h2, h⟩ := h
        obtain ⟨m', hm', rfl⟩ := elemUnlock_ok h2
        have e := slot_unique hm hm'
        subst e
        have ht2 : Tracked p (B1.unlock (Lock.elem m)) := tracked_unlock _ ht1
        have hh2 : (B1.unlock (Lock.elem m)).held = B.held := lock_unlock_held hl
        rw [bind_eq_ok] at h
        obtain ⟨⟨last3, B3⟩, h3, h⟩ := h
        obtain ⟨ht3, hh3⟩ := getLastElem_tracked K p hp fuel _ last3 B3 ht2
          (by rw [hh2]; exact hQt _ hq) h3
        exact outputLoop_tracked K p Q hp hQt hQh hQ1 hQ2 fuel last3 B3 r ht3
          (by rw [hh3, hh2]; exact hq) h

theorem outputWith_tracked (sched : Shm → Shm) (K : Consts) (fuel : Nat) (tup : Tuple)
    (p : Nat → Lock → List Lock → Bool) (Q : Nat → List Lock → Prop)
    (hp : ∀ f m h, p f (Lock.elem m) h = true)
    (hpc : ∀ f h, p f Lock.condMutex h = true)
    (hQt : ∀ f h, Q f h → p f Lock.tailLock h = true)
    (hQh : ∀ f h, Q f h → p f Lock.headLock h = true)
    (hQ1 : ∀ f h, Q f h → Q f (Lock.headLock :: h))
    (hQ2 : ∀ f m h, Q f h → Q f (Lock.elem m :: h))
    (hQ0 : ∀ f, Q f [Lock.elem f])
    (S : Shm) (c : Nat) (r : OutputResult) (B' : Buffer)
    (h : outputWith sched K fuel tup ⟨S, c, [], []⟩ = Except.ok (r, B')) :
    (r = OutputResult.out_of_memory ∧ ∀ f, acquiresSat (p f) [] B'.trace = true) ∨
    (r = OutputResult.success ∧ ∃ f, f < K.MAX_TUPLES_COUNT ∧
      acquiresSat (p f) [] B'.trace = true) := by
  have ht0 : ∀ f, Tracked (p f) ⟨S, c, [], []⟩ := fun f => ⟨rfl, rfl⟩
  unfold outputWith at h
  rw [bind_eq_ok] at h
  obtain ⟨⟨fb, B1⟩, h1, h⟩ := h
  dsimp only at h
  split at h
  · simp only [pure_eq_ok, Except.ok.injEq, Prod.mk.injEq] at h
    obtain ⟨rfl, rfl⟩ := h
    left
    refine ⟨rfl, fun f => ?_⟩
    exact (findFreeBlockLoop_tracked K (p f) (hp f) _ _ fb B1 (ht0 f) h1).1.2
  · rename_i hfb
    right
    have hall : ∀ f, Tracked (p f) B1 ∧ ((fb = K.Invalid ∧ B1.held = []) ∨
        (∃ m : Nat, K.slot fb = Except.ok m ∧ B1.held = [Lock.elem m])) :=
      fun f => findFreeBlockLoop_tracked K (p f) (hp f) _ _ fb B1 (ht0 f) h1
    obtain ⟨f, hf, hheld1⟩ : ∃ f : Nat, K.slot fb = Except.ok f ∧ B1.held = [Lock.elem f] := by
      rcases (hall 0).2 with ⟨h2, _⟩ | h2
      · exact absurd h2 hfb
      · exact h2
    have ht1 : Tracked (p f) B1 := (hall f).1
    have hq1 : Q f B1.held := by rw [hheld1]; exact hQ0 f
    rw [bind_eq_ok] at h
    obtain ⟨⟨last, B2⟩, h2, h⟩ := h
    obtain ⟨ht2, hh2⟩ := getLastElem_tracked K (p f) (hp f) fuel B1 last B2 ht1 (hQt f _ hq1) h2
    dsimp only at h
    rw [bind_eq_ok] at h
    obtain ⟨⟨adding, last3, B3⟩, h3, h⟩ := h
    obtain ⟨ht3, hq3⟩ := outputLoop_tracked K (p f) (Q f) (hp f) (hQt f) (hQh f) (hQ1 f) (hQ2 f)
      fuel last _ _ (by exact tracked_congr ht2 rfl rfl) (by rw [← hh2] at hq1; exact hq1) h3
    dsimp only at h ht3 hq3
    rw [bind_eq_ok] at h
    obtain ⟨B4, h4, h⟩ := h
    obtain ⟨ht4, _, _⟩ := tracked_lock ht3 h4 (hQt f _ hq3)
    have hfin : ∀ (B5 : Buffer) (l : Lock), Tracked (p f) B5 →
        (do
          let B ← Elem.unlock K fb ((B5.unlock l).unlock Lock.tailLock)
          let B ← B.lock Lock.condMutex
          let s ← Elem.getStatus K fb (B.unlock Lock.condMutex)
          if s = Status.Free then Except.error Fault.assertion
          else pure (OutputResult.success, B.unlock Lock.condMutex)) = Except.ok (r, B') →
        r = OutputResult.success ∧ acquiresSat (p f) [] B'.trace = true := by
      intro B5 l ht5 hrun
      rw [bind_eq_ok] at hrun
      obtain ⟨B6, h6, hrun⟩ := hrun
      obtain ⟨m6, _, rfl⟩ := elemUnlock_ok h6
      have ht6 := tracked_unlock (Lock.elem m6) (tracked_unlock Lock.tailLock (tracked_unlock l ht5))
      rw [bind_eq_ok] at hrun
      obtain ⟨B7, h7, hrun⟩ := hrun
      obtain ⟨ht7, _, _⟩ := tracked_lock ht6 h7 (hpc f _)
      have ht8 := tracked_unlock Lock.condMutex ht7
      rw [bind_eq_ok] at hrun
      obtain ⟨s, _, hrun⟩ := hrun
      split at hrun
      · simp at hrun
      · simp only [pure_eq_ok, Except.ok.injEq, Prod.mk.injEq] at hrun
        obtain ⟨rfl, rfl⟩ := hrun
        exact ⟨rfl, ht8.2⟩
    have hlt : f < K.MAX_TUPLES_COUNT := (slot_eq_ok hf).2
    cases adding with
    | true =>
      simp only [if_true] at h
      rw [bind_eq_ok] at h
      obtain ⟨B5, h5, h⟩ := h
      obtain ⟨e1, e2⟩ := setPrevIndex_ok h5
      have ht5 : Tracked (p f) B5 := tracked_congr (by exact tracked_congr ht4 rfl rfl) e1 e2
      rw [bind_eq_ok] at h
      obtain ⟨B6, h6, h⟩ := h
      obtain ⟨e1, e2⟩ := writeTuple_ok h6
      have ht6 : Tracked (p f) B6 := tracked_congr ht5 e1 e2
      rw [bind_eq_ok] at h
      obtain ⟨B7, h7, h⟩ := h
      obtain ⟨e1, e2⟩ := setStatus_ok h7
      have ht7 : Tracked (p f) B7 := tracked_congr ht6 e1 e2
      simp only [pure_eq_ok, ok_bind] at h
      obtain ⟨hr, hs⟩ := hfin (B7.setTailIndex fb) Lock.headLock
        (by exact tracked_congr ht7 rfl rfl) h
      exact ⟨hr, f, hlt, hs⟩
    | false =>
      simp only [Bool.false_eq_true, if_false] at h
      rw [bind_eq_ok] at h
      obtain ⟨B5a, h5a, h⟩ := h
      obtain ⟨e1, e2⟩ := setNextIndex_ok h5a
      have ht5a : Tracked (p f) B5a := tracked_congr ht4 e1 e2
      rw [bind_eq_ok] at h
      obtain ⟨B5, h5, h⟩ := h
      obtain ⟨e1, e2⟩ := setPrevIndex_ok h5
      have ht5 : Tracked (p f) B5 := tracked_congr ht5a e1 e2
      rw [bind_eq_ok] at h
      obtain ⟨B6, h6, h⟩ := h
      obtain ⟨e1, e2⟩ := writeTuple_ok h6
      have ht6 : Tracked (p f) B6 := tracked_congr ht5 e1 e2
      rw [bind_eq_ok] at h
      obtain ⟨B7, h7, h⟩ := h
      obtain ⟨e1, e2⟩ := setStatus_ok h7
      have ht7 : Tracked (p f) B7 := tracked_congr ht6 e1 e2
      rw [bind_eq_ok] at h
      obtain ⟨B8, h8, h⟩ := h
      obtain ⟨m8, _, rfl⟩ := elemUnlock_ok h8
      obtain ⟨hr, hs⟩ := hfin (B7.setTailIndex fb) (Lock.elem m8)
        (by exact tracked_congr ht7 rfl rfl) h
      exact ⟨hr, f, hlt, hs⟩

/-! ### The claims on the allocator and on capacity exhaustion, and instances -/

/-- C8. From a cursor `c < N` and with no lock held, `findFreeBlock` probes the blocks
`c, c+1, ..., c+N-1` modulo `N` in this order (these are pairwise distinct), locking and
unlocking each block that is not `Free`. Either it stops at the first `Free` block `f` of
this sequence and returns it: the cursor is `f`, the lock of `f` is the only lock held,
the `next` of `f` is `End`, its other fields (its status `Free` among them), every other
block, head and tail are unchanged. Or no block is `Free`: it has probed all `N` blocks
and returns `Invalid` with the segment and the cursor unchanged and no lock held. -/
theorem findFreeBlock_scan (K : Consts) (S : Shm) (c : Nat) (tr : List LockEv)
    (hc : c < K.MAX_TUPLES_COUNT) :
    (probeSeq K.MAX_TUPLES_COUNT c K.MAX_TUPLES_COUNT).Nodup ∧
    ((∃ k f B', k < K.MAX_TUPLES_COUNT ∧ f = (c + k) % K.MAX_TUPLES_COUNT ∧
        f < K.MAX_TUPLES_COUNT ∧
        (∀ a, a ∈ probeSeq K.MAX_TUPLES_COUNT c k → (S.blocks a).status ≠ Status.Free) ∧
        (S.blocks f).status = Status.Free ∧
        findFreeBlock K ⟨S, c, [], tr⟩ = Except.ok ((f : Int), B') ∧
        B'.currentAllocationIndex = f ∧
        B'.held = [Lock.elem f] ∧
        B'.trace = tr ++ probeTrace (probeSeq K.MAX_TUPLES_COUNT c k)
          ++ [LockEv.acquire (Lock.elem f)] ∧
        B'.shm.headIndex = S.headIndex ∧ B'.shm.tailIndex = S.tailIndex ∧
        B'.shm.blocks f = { S.blocks f with nextIndex := K.End } ∧
        (B'.shm.blocks f).status = Status.Free ∧
        (∀ i, i ≠ f → B'.shm.blocks i = S.blocks i)) ∨
     ((∀ i, i < K.MAX_TUPLES_COUNT → (S.blocks i).status ≠ Status.Free) ∧
        findFreeBlock K ⟨S, c, [], tr⟩ = Except.ok (K.Invalid,
          ⟨S, c, [], tr ++ probeTrace (probeSeq K.MAX_TUPLES_COUNT c K.MAX_TUPLES_COUNT)⟩))) :=
  findFreeBlock_cases K S c tr hc

/-- An instance on the two-block buffer that holds one tuple, cursor on the occupied block. -/
theorem findFreeBlock_scan_witness :
    0 < K2.MAX_TUPLES_COUNT ∧
    (probeSeq K2.MAX_TUPLES_COUNT 0 K2.MAX_TUPLES_COUNT).Nodup ∧
    ((∃ k f B', k < K2.MAX_TUPLES_COUNT ∧ f = (0 + k) % K2.MAX_TUPLES_COUNT ∧
        f < K2.MAX_TUPLES_COUNT ∧
        (∀ a, a ∈ probeSeq K2.MAX_TUPLES_COUNT 0 k → (one2.shm.blocks a).status ≠ Status.Free) ∧
        (one2.shm.blocks f).status = Status.Free ∧
        findFreeBlock K2 ⟨one2.shm, 0, [], []⟩ = Except.ok ((f : Int), B') ∧
        B'.currentAllocationIndex = f ∧
        B'.held = [Lock.elem f] ∧
        B'.trace = [] ++ probeTrace (probeSeq K2.MAX_TUPLES_COUNT 0 k)
          ++ [LockEv.acquire (Lock.elem f)] ∧
        B'.shm.headIndex = one2.shm.headIndex ∧ B'.shm.tailIndex = one2.shm.tailIndex ∧
        B'.shm.blocks f = { one2.shm.blocks f with nextIndex := K2.End } ∧
        (B'.shm.blocks f).status = Status.Free ∧
        (∀ i, i ≠ f → B'.shm.blocks i = one2.shm.blocks i)) ∨
     ((∀ i, i < K2.MAX_TUPLES_COUNT → (one2.shm.blocks i).status ≠ Status.Free) ∧
        findFreeBlock K2 ⟨one2.shm, 0, [], []⟩ = Except.ok (K2.Invalid,
          ⟨one2.shm, 0, [], [] ++ probeTrace (probeSeq K2.MAX_TUPLES_COUNT 0 K2.MAX_TUPLES_COUNT)⟩))) :=
  ⟨by decide, findFreeBlock_scan K2 one2.shm 0 [] (by decide)⟩

/-- C1. From a cursor in `0 .. N-1` and with no lock held, `output` returns
`out_of_memory` exactly when no block is `Free`; and when it returns `out_of_memory` the
segment (head, tail, every field of every block) and the cursor are what they were
before the call and the process holds no lock. -/
theorem output_out_of_memory_iff (K : Consts) (hK : K.WF) (fuel : Nat) (t : Tuple)
    (S : Shm) (c : Nat) (tr : List LockEv) (hc : c < K.MAX_TUPLES_COUNT) :
    ((∃ B', output K fuel t ⟨S, c, [], tr⟩ = Except.ok (OutputResult.out_of_memory, B')) ↔
      ∀ i, i < K.MAX_TUPLES_COUNT → (S.blocks i).status ≠ Status.Free) ∧
    (∀ B', output K fuel t ⟨S, c, [], tr⟩ = Except.ok (OutputResult.out_of_memory, B') →
      B'.shm = S ∧ B'.currentAllocationIndex = c ∧ B'.held = []) :=
  output_oom_cases K hK fuel t S c tr hc

/-- An instance on the full two-block buffer: the call returns `out_of_memory`. -/
theorem output_out_of_memory_iff_witness :
    K2.WF ∧ 1 < K2.MAX_TUPLES_COUNT ∧
    valueOf (output K2 1 [3] ⟨full2.shm, 1, [], []⟩) = some OutputResult.out_of_memory ∧
    ((∃ B', output K2 1 [3] ⟨full2.shm, 1, [], []⟩ =
        Except.ok (OutputResult.out_of_memory, B')) ↔
      ∀ i, i < K2.MAX_TUPLES_COUNT → (full2.shm.blocks i).status ≠ Status.Free) ∧
    (∀ B', output K2 1 [3] ⟨full2.shm, 1, [], []⟩ =
        Except.ok (OutputResult.out_of_memory, B') →
      B'.shm = full2.shm ∧ B'.currentAllocationIndex = 1 ∧ B'.held = []) :=
  ⟨by decide, by decide, by decide,
    output_out_of_memory_iff K2 (by decide) 1 [3] full2.shm 1 [] (by decide)⟩

/-- An instance on the two-block buffer that holds one tuple. -/
theorem output_appends_witness :
    K2.WF ∧ 0 < 1 ∧ 0 < K2.MAX_TUPLES_COUNT ∧ ListInvOn K2 one2.shm [0] ∧
    (∃ i, i < K2.MAX_TUPLES_COUNT ∧ (one2.shm.blocks i).status = Status.Free) ∧
    ∃ f B', f < K2.MAX_TUPLES_COUNT ∧ (one2.shm.blocks f).status = Status.Free ∧
      output K2 1 [2] ⟨one2.shm, 0, [], []⟩ = Except.ok (OutputResult.success, B') ∧
      Chain K2 B'.shm B'.shm.headIndex ([0] ++ [f]) ∧
      B'.shm.blocks f = Elem.mk Status.Valid K2.End
        (if [0] = ([] : List Nat) then K2.REnd else one2.shm.tailIndex) [2] ∧
      B'.shm.tailIndex = (f : Int) ∧
      ([0] = ([] : List Nat) → B'.shm.headIndex = (f : Int)) ∧
      ([0] ≠ ([] : List Nat) → B'.shm.headIndex = one2.shm.headIndex) ∧
      (∀ i, i ≠ f → (B'.shm.blocks i).status = (one2.shm.blocks i).status ∧
        (B'.shm.blocks i).prevIndex = (one2.shm.blocks i).prevIndex ∧
        (B'.shm.blocks i).tupleBody = (one2.shm.blocks i).tupleBody) :=
  ⟨by decide, by decide, by decide, by decide, ⟨1, by decide, by decide⟩,
    output_appends K2 (by decide) 1 [2] one2.shm 0 [] [0] (by decide) (by decide) (by decide)
      ⟨1, by decide, by decide⟩⟩

/-- An instance: the tuple `[5]` is inserted after `[1]` and read twice with a query that
matches `[5]` only. -/
theorem read_after_output_witness :
    K2.WF ∧ 0 < K2.MAX_TUPLES_COUNT ∧ ListInvOn K2 one2.shm [0] ∧
    (matchTuple [5]).empty = false ∧ (matchTuple [5]).matchesTuple [5] = true ∧
    (∀ x, x ∈ [0] → (matchTuple [5]).matchesTuple (one2.shm.blocks x).tupleBody = false) ∧
    output K2 1 [5] ⟨one2.shm, 0, [], []⟩ = Except.ok (OutputResult.success,
      bufferOf one2 (output K2 1 [5] ⟨one2.shm, 0, [], []⟩)) ∧
    [0].length + 1 < 3 ∧
    ∃ B2 B3, read K2 3 (matchTuple [5]) (bufferOf one2 (output K2 1 [5] ⟨one2.shm, 0, [], []⟩)) =
        Except.ok (some [5], B2) ∧
      B2.shm = (bufferOf one2 (output K2 1 [5] ⟨one2.shm, 0, [], []⟩)).shm ∧
      read K2 3 (matchTuple [5]) B2 = Except.ok (some [5], B3) ∧
      B3.shm = (bufferOf one2 (output K2 1 [5] ⟨one2.shm, 0, [], []⟩)).shm :=
  ⟨by decide, by decide, by decide, rfl, by decide, by decide, rfl, by decide,
    read_after_output K2 (by decide) 1 3 [5] (matchTuple [5]) one2.shm 0 [] [0] _
      (by decide) (by decide) rfl (by decide) (by decide) rfl (by decide)⟩

/-- An instance: `[1]` then `[2]` inserted in the fresh two-block buffer and retrieved with
the query that matches every tuple. -/
theorem input_fifo_witness :
    K2.WF ∧ matchAll.empty = false ∧ 0 < K2.MAX_TUPLES_COUNT ∧ ListInvOn K2 (init K2) [] ∧
    matchAll.matchesTuple [1] = true ∧ matchAll.matchesTuple [2] = true ∧
    output K2 1 [1] ⟨init K2, 0, [], []⟩ = Except.ok (OutputResult.success, one2) ∧
    output K2 1 [2] one2 = Except.ok (OutputResult.success, full2) ∧
    2 < 3 ∧
    ListInvOn K2 full2.shm ([] ++ 0 :: [1]) ∧
    (true = true → PrevChain full2.shm K2.REnd ([] ++ 0 :: [1])) ∧
    (∀ y, y ∈ ([] : List Nat) → matchAll.matchesTuple (full2.shm.blocks y).tupleBody = false) ∧
    matchAll.matchesTuple (full2.shm.blocks 0).tupleBody = true ∧
    ([] ++ 0 :: [1]).length < 3 ∧
    (∃ B3 B4, input K2 3 matchAll full2 = Except.ok (some [1], B3) ∧
      input K2 3 matchAll B3 = Except.ok (some [2], B4)) ∧
    (∃ B', inputReadImpl K2 3 matchAll true ⟨full2.shm, 1, [], []⟩ =
        Except.ok (some (full2.shm.blocks 0).tupleBody, B') ∧
      B'.shm = (if true then unlinked K2 full2.shm 0 else full2.shm)) :=
  ⟨by decide, rfl, by decide, by decide, rfl, rfl, rfl, rfl, by decide, by decide,
    fun _ => by decide, by decide, rfl, by decide,
    input_fifo K2 (by decide) matchAll rfl (init K2) 0 [] 1 3 [1] [2] one2 full2
      (by decide) (by decide) rfl rfl rfl rfl (by decide)
      true full2.shm 1 [] 3 [] 0 [1] (by decide) (fun _ => by decide) (by decide) rfl
      (by decide)⟩

/-- An instance with two blocks: two insertions, a refused third, a removal, an insertion. -/
theorem capacity_bound_witness :
    K2.WF ∧ 0 < 1 ∧ [[1], [2]].length = K2.MAX_TUPLES_COUNT ∧ matchAll.empty = false ∧
    (∃ u, u ∈ [[1], [2]] ∧ matchAll.matchesTuple u = true) ∧ K2.MAX_TUPLES_COUNT < 3 ∧
    ∃ B1 B2 x B3 B4,
      outputs K2 1 [[1], [2]] (Buffer.attach (init K2)) =
        Except.ok (List.replicate K2.MAX_TUPLES_COUNT OutputResult.success, B1) ∧
      output K2 1 [3] B1 = Except.ok (OutputResult.out_of_memory, B2) ∧
      input K2 3 matchAll B2 = Except.ok (some x, B3) ∧ x ∈ [[1], [2]] ∧
      output K2 1 [4] B3 = Except.ok (OutputResult.success, B4) :=
  ⟨by decide, by decide, rfl, rfl, ⟨[1], by decide, rfl⟩, by decide,
    capacity_bound K2 (by decide) 1 3 (by decide) [[1], [2]] rfl [3] [4] matchAll rfl
      ⟨[1], by decide, rfl⟩ (by decide)⟩

/-- An instance on the two-block buffer that holds one tuple. -/
theorem listInv_init_output_witness :
    K2.WF ∧ 0 < 1 ∧ 0 < K2.MAX_TUPLES_COUNT ∧ ListInv K2 one2.shm ∧
    ListInv K2 (init K2) ∧
    (∃ B0, getFirstElem K2 ⟨one2.shm, 0, [], []⟩ = Except.ok (one2.shm.headIndex, B0)) ∧
    ∃ r B', output K2 1 [2] ⟨one2.shm, 0, [], []⟩ = Except.ok (r, B') ∧
      ListInv K2 B'.shm ∧ B'.Idle K2 ∧
      ∃ B'', getFirstElem K2 B' = Except.ok (B'.shm.headIndex, B'') :=
  ⟨by decide, by decide, by decide, ⟨by decide, [0], by decide⟩,
    listInv_init_output K2 (by decide) 1 [2] one2.shm 0 [] (by decide) (by decide)
      ⟨by decide, [0], by decide⟩⟩

/-- C7, counterexample. With two blocks, two insert-then-remove cycles from the freshly
initialised buffer both succeed and both place their tuple in block `0`: the two cycles do
not use two distinct blocks. -/
theorem cycles_distinct_blocks_counterexample :
    valueOf (cycles K2 2 matchAll [[1], [2]] fresh2) =
      some [(OutputResult.success, 0, some [1]), (OutputResult.success, 0, some [2])] ∧
    ¬ ((([(OutputResult.success, 0, some [1]), (OutputResult.success, 0, some [2])] :
      List (OutputResult × Int × Option Tuple)).map (fun r => r.2.1)).Nodup) := by
  decide

/-- An instance: two cycles on the fresh two-block buffer. -/
theorem cycles_reuse_block_witness :
    K2.WF ∧ 1 < 2 ∧ matchAll.empty = false ∧ ListInvOn K2 (init K2) [] ∧
    0 < K2.MAX_TUPLES_COUNT ∧ (∀ t, t ∈ [[1], [2]] → matchAll.matchesTuple t = true) ∧
    ∃ B', cycles K2 2 matchAll [[1], [2]] ⟨init K2, 0, [], []⟩ =
        Except.ok ([[1], [2]].map (fun t => (OutputResult.success, ((0 : Nat) : Int), some t)), B') ∧
      ListInvOn K2 B'.shm [] ∧ B'.currentAllocationIndex = 0 ∧ B'.held = [] :=
  ⟨by decide, by decide, rfl, by decide, by decide, fun _ _ => rfl,
    cycles_reuse_block K2 (by decide) 2 (by decide) matchAll rfl [[1], [2]] (init K2) 0 []
      (by decide) (by decide) (fun _ _ => rfl)⟩

/-- C9, counterexample. In the first `output` on the freshly initialised two-block
buffer, which returns `success`, tailLock is acquired (second event) while the lock of
block `0` is held: the history does not respect the order headLock, tailLock, block
locks. -/
theorem output_lock_order_counterexample :
    valueOf (output K2 1 [7] fresh2) = some OutputResult.success ∧
    traceOf (output K2 1 [7] fresh2) =
      [LockEv.acquire (Lock.elem 0), LockEv.acquire Lock.tailLock, LockEv.release Lock.tailLock,
        LockEv.acquire Lock.tailLock, LockEv.release Lock.tailLock,
        LockEv.acquire Lock.headLock, LockEv.acquire Lock.tailLock,
        LockEv.release Lock.headLock, LockEv.release Lock.tailLock,
        LockEv.release (Lock.elem 0), LockEv.acquire Lock.condMutex,
        LockEv.release Lock.condMutex] ∧
    lockOrdered (traceOf (output K2 1 [7] fresh2)) = false := by
  decide

/-- C9 (as amended). In every run of `output` that returns, whatever the other processes
do at the scheduling point: headLock is never acquired while tailLock is held; and when
the run returns `success` there is a block `f` (the newly allocated one, locked first, in
`findFreeBlock`) whose lock is held at every acquisition of headLock and of tailLock.
The block locks therefore do not come last in the order of acquisition; only the order
headLock before tailLock is respected. -/
theorem output_lock_discipline (sched : Shm → Shm) (K : Consts) (fuel : Nat) (tup : Tuple)
    (S : Shm) (c : Nat) (r : OutputResult) (B' : Buffer)
    (h : outputWith sched K fuel tup ⟨S, c, [], []⟩ = Except.ok (r, B')) :
    headBeforeTail B'.trace = true ∧
    (r = OutputResult.success →
      ∃ f, f < K.MAX_TUPLES_COUNT ∧ headTailUnderElem f B'.trace = true) := by
  constructor
  · have key := outputWith_tracked sched K fuel tup
      (fun _ l h => !(decide (l = Lock.headLock) && h.contains Lock.tailLock))
      (fun _ h => Lock.tailLock ∉ h)
      (fun _ _ _ => by simp) (fun _ _ => by simp) (fun _ _ _ => by simp)
      (fun _ h hq => by simpa using hq)
      (fun _ h hq => by simpa using hq) (fun _ _ h hq => by simpa using hq)
      (fun _ => by simp) S c r B' h
    rcases key with ⟨_, h2⟩ | ⟨_, f, _, h2⟩
    · exact h2 0
    · exact h2
  · intro hr
    have key := outputWith_tracked sched K fuel tup
      (fun f l h => !(decide (l = Lock.headLock ∨ l = Lock.tailLock)) ||
        h.contains (Lock.elem f))
      (fun f h => Lock.elem f ∈ h)
      (fun _ _ _ => by simp) (fun _ _ => by simp) (fun _ h hq => by simpa using hq)
      (fun _ h hq => by simpa using hq)
      (fun _ h hq => List.mem_cons_of_mem _ hq) (fun _ _ h hq => List.mem_cons_of_mem _ hq)
      (fun _ => by simp) S c r B' h
    rcases key with ⟨h1, _⟩ | ⟨_, f, hf, h2⟩
    · rw [hr] at h1
      exact absurd h1 (by decide)
    · exact ⟨f, hf, h2⟩

/-- An instance: the first insertion in the fresh two-block buffer. -/
theorem output_lock_discipline_witness :
    outputWith id K2 1 [7] ⟨init K2, 0, [], []⟩ =
      Except.ok (OutputResult.success, bufferOf fresh2 (output K2 1 [7] fresh2)) ∧
    headBeforeTail (bufferOf fresh2 (output K2 1 [7] fresh2)).trace = true ∧
    (OutputResult.success = OutputResult.success →
      ∃ f, f < K2.MAX_TUPLES_COUNT ∧
        headTailUnderElem f (bufferOf fresh2 (output K2 1 [7] fresh2)).trace = true) :=
  ⟨rfl, output_lock_discipline id K2 1 [7] (init K2) 0 OutputResult.success _ rfl⟩

/-- C10, the defect. Two producers on the freshly initialised two-block buffer. The first
reserves block `0` and reads the tail as `End`; the second, with its cursor on block `1`,
then runs a whole `output`; the first goes on: it acquires headLock, finds the head not
`End`, retries against the new tail and links its block. It returns `success` and still
holds headLock: its history has an acquisition of headLock and no release of it. -/
theorem output_retry_keeps_headLock :
    valueOf (outputWith (otherProducer K2 1 [9] 1) K2 2 [7] fresh2) =
      some OutputResult.success ∧
    heldOf (outputWith (otherProducer K2 1 [9] 1) K2 2 [7] fresh2) = [Lock.headLock] ∧
    traceOf (outputWith (otherProducer K2 1 [9] 1) K2 2 [7] fresh2) =
      [LockEv.acquire (Lock.elem 0), LockEv.acquire Lock.tailLock, LockEv.release Lock.tailLock,
        LockEv.acquire Lock.tailLock, LockEv.release Lock.tailLock,
        LockEv.acquire Lock.headLock, LockEv.acquire Lock.tailLock,
        LockEv.release Lock.tailLock, LockEv.acquire (Lock.elem 1),
        LockEv.release (Lock.elem 1), LockEv.acquire (Lock.elem 1),
        LockEv.acquire Lock.tailLock, LockEv.release (Lock.elem 1),
        LockEv.release Lock.tailLock, LockEv.release (Lock.elem 0),
        LockEv.acquire Lock.condMutex, LockEv.release Lock.condMutex] ∧
    LockEv.release Lock.headLock ∉
      traceOf (outputWith (otherProducer K2 1 [9] 1) K2 2 [7] fresh2) := by
  decide

end Linda
